import Mathlib

/-!
# Verification of the aura-music lyrics parsing and merging engine

A shallow embedding of the lyrics core of `dingyi222666/aura-music`:
the line-timestamp (LRC) parser (`src/services/lyrics/lrc.ts`), the
word-synced NetEase parser (`src/services/lyrics/netease.ts`), the external
translation merger (`src/services/lyrics/translation.ts`) and the orchestrator
(`src/services/lyrics/index.ts`).

Modelling conventions:
* Strings are `List Char` (`Str`); JavaScript `trim`, `toLowerCase`,
  `split("\n")` and the regular-expression scans used by the source are
  modelled by explicit structurally recursive scanners.
* All times are exact integer **milliseconds** (`ℤ`).  Every time value in the
  source is derived from decimal digit groups (`mm:ss.xx` tags, YRC
  millisecond fields), so every quantity the pipeline manipulates is an
  integral number of milliseconds; the float constants of the source become
  `0.1 s = 100`, `0.01 s = 10`, `0.001 s = 1`, `0.25 s = 250`, `2.0 s = 2000`,
  `3.0 s = 3000`, `1.0 s = 1000`.
* `Array.prototype.sort` (a stable sort) is modelled by Mathlib's stable
  `List.insertionSort` applied to the relation `comparator a b ≤ 0`.
* A JavaScript `Map` is modelled by an association list in insertion order,
  matching the `Map` iteration-order guarantee.
* `utils.ts` and `types.ts` of the repository are not among the provided
  sources; every definition taken from them is marked
  `Modelled from the spec:` and follows the spec's wording.
-/

namespace Aura

/-- Character strings of the embedding: JavaScript strings as lists of chars. -/
abbrev Str := List Char

/-- JavaScript `String.prototype.trim`, modelled with `Char.isWhitespace`. -/
def trimStr (s : Str) : Str :=
  ((s.dropWhile Char.isWhitespace).reverse.dropWhile Char.isWhitespace).reverse

/-- JavaScript `String.prototype.toLowerCase` (per-character lowering). -/
def toLowerStr (s : Str) : Str := s.map Char.toLower

/-- Auxiliary accumulator-based splitter for `split("\n")`. -/
def splitLinesAux (cur : Str) : Str → List Str
  | [] => [cur.reverse]
  | c :: r => if c = '\n' then cur.reverse :: splitLinesAux [] r
              else splitLinesAux (c :: cur) r

/-- JavaScript `content.split("\n")`. -/
def splitLines (s : Str) : List Str := splitLinesAux [] s

/-- Numeric value of a digit string (the effect of `parseInt` on an
all-digit capture group). -/
def natOfDigits (s : Str) : ℕ := s.foldl (fun n c => 10 * n + (c.toNat - 48)) 0

/-- Join a list of strings with a separator character
(JavaScript `parts.join("\n")`). -/
def joinWith (sep : Char) : List Str → Str
  | [] => []
  | [x] => x
  | x :: y :: xs => x ++ sep :: joinWith sep (y :: xs)

/-- The left-brace character, written by code point to keep source text plain. -/
def lbrace : Char := Char.ofNat 123

/-- The right-brace character, written by code point. -/
def rbrace : Char := Char.ofNat 125

/-! ## Data model (`types.ts`) -/

/-- A word with its own timing (`LyricWord` of `types.ts`); times in ms. -/
structure LyricWord where
  startTime : ℤ
  endTime : ℤ
  text : Str
deriving DecidableEq, Repr

/-- A final output line (`LyricLine` of `types.ts`).  The optional `words`
field of the source is modelled as a list that is empty exactly when the
field is absent; `translation` and `duration` stay `Option`. -/
structure LyricLine where
  time : ℤ
  text : Str
  words : List LyricWord
  translation : Option Str
  isPreciseTiming : Bool
  duration : Option ℤ
deriving DecidableEq, Repr

/-- Parser-local intermediate record (`ParsedLineData` of `types.ts`). -/
structure ParsedLineData where
  time : ℤ
  text : Str
  words : List LyricWord
  tagCount : ℕ
  originalIndex : ℕ
  isMetadata : Bool
deriving DecidableEq, Repr

/-! ## Primitives of `utils.ts` (file absent from src/, modelled from the spec) -/

/-- Modelled from the spec: `parseTimeTag` of the missing `utils.ts` parses
`mm:ss.xx` (2–3 fractional digits, hundredths or milliseconds) into a time,
failing only on malformed numeric groups.  Result in integer milliseconds. -/
def parseTimeTag (s : Str) : Option ℤ :=
  let m := s.takeWhile Char.isDigit
  match s.dropWhile Char.isDigit with
  | ':' :: r2 =>
    let sec := r2.takeWhile Char.isDigit
    match r2.dropWhile Char.isDigit with
    | '.' :: r4 =>
      let f := r4.takeWhile Char.isDigit
      if m ≠ [] ∧ sec ≠ [] ∧ (f.length = 2 ∨ f.length = 3) ∧
          r4.dropWhile Char.isDigit = [] then
        some (60000 * (natOfDigits m : ℤ) + 1000 * (natOfDigits sec : ℤ) +
          (if f.length = 2 then 10 * (natOfDigits f : ℤ) else (natOfDigits f : ℤ)))
      else none
    | _ => none
  | _ => none

/-- Modelled from the spec: `normalizeTimeKey` of the missing `utils.ts`
quantizes a time to a fixed sub-10 ms resolution bucket used as a map key,
tolerating float rounding.  In milliseconds: round to the nearest multiple
of 10 ms, so that key differences compare directly against the
second-valued tolerances of the translation merger. -/
def normalizeTimeKey (t : ℤ) : ℤ := 10 * ((t + 5).fdiv 10)

/-- Modelled from the spec: `createWord` of the missing `utils.ts` builds a
word record; no relation between `end` and `start` is guaranteed here. -/
def createWord (text : Str) (startTime endTime : ℤ) : LyricWord :=
  ⟨startTime, endTime, text⟩

/-- Modelled from the spec: the fixed punctuation character set used by the
punctuation-merge and meaningful-content utilities of the missing `utils.ts`
(common ASCII and CJK punctuation). -/
def punctChars : List Char :=
  [',', '.', '!', '?', ';', ':', '~', '-', '_', '/', '\\', '"', '(', ')',
   '[', ']', '*', '&', '·', '、', '。', '！', '？', '，', '；', '：',
   '“', '”', '‘', '’', '（', '）', '《', '》', '…', '—', '–']

/-- Membership in the modelled punctuation set. -/
def isPunctChar (c : Char) : Bool := punctChars.contains c

/-- A string consisting solely of punctuation/whitespace characters
(and at least one character, as the source's regexes require). -/
def isPunctOnly (s : Str) : Bool :=
  !s.isEmpty && s.all (fun c => isPunctChar c || c.isWhitespace)

/-- Accumulator (reversed) pass of the punctuation merge. -/
def mergePunctAux : List LyricWord → List LyricWord → List LyricWord
  | acc, [] => acc.reverse
  | [], w :: ws => mergePunctAux [w] ws
  | p :: acc, w :: ws =>
    if isPunctOnly w.text then
      mergePunctAux ({ p with text := p.text ++ w.text, endTime := w.endTime } :: acc) ws
    else
      mergePunctAux (w :: p :: acc) ws

/-- Modelled from the spec: `mergePunctuationWords` of the missing `utils.ts`
merges every punctuation/whitespace-only word into the immediately preceding
word (text appended, end time extended); a first word with no predecessor is
left standing. -/
def mergePunctuationWords (ws : List LyricWord) : List LyricWord :=
  mergePunctAux [] ws

/-- Modelled from the spec: the credit-line keyword prefixes of
`isMetadataLine` in the missing `utils.ts` (author/composer/arranger labels
in two languages). -/
def metadataPrefixes : List Str :=
  [['作', '词'], ['作', '曲'], ['编', '曲'], ['制', '作', '人'],
   ['L', 'y', 'r', 'i', 'c', 'i', 's', 't'],
   ['C', 'o', 'm', 'p', 'o', 's', 'e', 'r'],
   ['A', 'r', 'r', 'a', 'n', 'g', 'e', 'r'],
   ['P', 'r', 'o', 'd', 'u', 'c', 'e', 'r']]

/-- Modelled from the spec: `isMetadataLine` of the missing `utils.ts`
classifies credit/metadata lines lexically: keyword-prefixed credit labels,
or fullwidth-bracket-wrapped pure label lines. -/
def isMetadataLine (text : Str) : Bool :=
  let t := trimStr text
  metadataPrefixes.any (fun p => p.isPrefixOf t) ||
  (t.head? = some '【' && t.getLast? = some '】')

/-- Word-reconstructed text of an entry: concatenation of its word texts. -/
def joinWordTexts (ws : List LyricWord) : Str := (ws.map LyricWord.text).flatten

/-- Modelled from the spec: `getEntryDisplayText` of the missing `utils.ts`
returns word-reconstructed text if words exist and reconstruct to non-empty
content, otherwise the raw parsed text. -/
def getEntryDisplayText (e : ParsedLineData) : Str :=
  let w := joinWordTexts e.words
  if e.words ≠ [] ∧ trimStr w ≠ [] then w else e.text

/-- Modelled from the spec: `hasMeaningfulContent` of the missing `utils.ts`
holds when the entry's display text, after trimming, is non-empty and not
solely punctuation/whitespace. -/
def hasMeaningfulContent (e : ParsedLineData) : Bool :=
  let d := getEntryDisplayText e
  !(trimStr d).isEmpty && !(d.all (fun c => isPunctChar c || c.isWhitespace))

/-- Default on-screen duration of the final line, which has no successor
(5 s); the Duration post-processor is modelled from the spec. -/
def defaultLastLineDuration : ℤ := 5000

/-- Modelled from the spec: `processLyricsDurations` of the missing `utils.ts`
sets each line's `duration` to the next line's time minus its own time; the
last line receives the documented default. -/
def processLyricsDurations : List LyricLine → List LyricLine
  | [] => []
  | [l] => [{ l with duration := some defaultLastLineDuration }]
  | a :: b :: r => { a with duration := some (b.time - a.time) } ::
      processLyricsDurations (b :: r)

/-- Modelled from the spec: `fixWordEndTimes` of the missing `utils.ts`
clamps word end times so that no word's `endTime` exceeds the next line's
`time` (the final sanitization pass of the LRC pipeline). -/
def fixWordEndTimes : List LyricLine → List LyricLine
  | [] => []
  | [l] => [l]
  | a :: b :: r =>
    { a with words := a.words.map (fun w => { w with endTime := min w.endTime b.time }) } ::
      fixWordEndTimes (b :: r)

/-! ## Regex scanners

The regular-expression scans of the source are modelled by explicit
matchers.  Each pattern begins with a unique opening character that cannot
occur inside a match's own span, so scanning every suffix (advance-by-one)
finds exactly the matches the JavaScript engine finds by advancing past
each match. -/

/-- Two mandatory digits of a `\d{2}` group. -/
def takeDigits2 : Str → Option (Str × Str)
  | a :: b :: r => if a.isDigit && b.isDigit then some ([a, b], r) else none
  | _ => none

/-- A `\d{2,3}` group immediately followed by the closing character
(greedy with the single backtracking step the regex engine performs). -/
def takeFrac (closer : Char) : Str → Option (Str × Str)
  | a :: b :: c :: d :: r =>
    if a.isDigit && b.isDigit then
      if c.isDigit && d = closer then some ([a, b, c], r)
      else if c = closer then some ([a, b], d :: r)
      else none
    else none
  | [a, b, c] =>
    if a.isDigit && b.isDigit && c = closer then some ([a, b], []) else none
  | _ => none

/-- Expect one literal character at the head of the string. -/
def expectChar (c : Char) : Str → Option Str
  | x :: r => if x = c then some r else none
  | [] => none

/-- Match `\[(\d{2}):(\d{2})\.(\d{2,3})\]` at the head of the string,
returning the three captures and the remainder after `]`. -/
def matchBracketTagAt (s : Str) : Option ((Str × Str × Str) × Str) :=
  (expectChar '[' s).bind fun r =>
  (takeDigits2 r).bind fun p1 =>
  (expectChar ':' p1.2).bind fun r2 =>
  (takeDigits2 r2).bind fun p2 =>
  (expectChar '.' p2.2).bind fun r4 =>
  (takeFrac ']' r4).map fun p3 => ((p1.1, p2.1, p3.1), p3.2)

/-- `matchAll` of the timestamp regex over a line: the capture list in
order, together with the text after the last match (the `.slice` the
source takes after the final timestamp). -/
def scanBracketTags : Str → List (Str × Str × Str) × Str
  | [] => ([], [])
  | c :: rest =>
    let t := scanBracketTags rest
    match matchBracketTagAt (c :: rest) with
    | some (cap, after) => (cap :: t.1, if t.1.isEmpty then after else t.2)
    | none => (t.1, t.2)

/-- Match `<(\d{2}):(\d{2})\.(\d{2,3})>([^<]*)` at the head of the string:
three numeric captures plus the following text up to the next `<`. -/
def matchWordTagAt (s : Str) : Option (Str × Str × Str × Str) :=
  (expectChar '<' s).bind fun r =>
  (takeDigits2 r).bind fun p1 =>
  (expectChar ':' p1.2).bind fun r2 =>
  (takeDigits2 r2).bind fun p2 =>
  (expectChar '.' p2.2).bind fun r4 =>
  (takeFrac '>' r4).map fun p3 => (p1.1, p2.1, p3.1, p3.2.takeWhile (fun c => c ≠ '<'))

/-- `matchAll` of the enhanced word-tag regex over the line content. -/
def scanWordTags : Str → List (Str × Str × Str × Str)
  | [] => []
  | c :: rest =>
    match matchWordTagAt (c :: rest) with
    | some cap => cap :: scanWordTags rest
    | none => scanWordTags rest

/-- Fuelled worker for the `replace(/<[^>]+>/g, "")` tag-stripping scan. -/
def removeAngleTagsF : ℕ → Str → Str
  | _, [] => []
  | 0, s => s
  | n + 1, c :: rest =>
    if c = '<' then
      let pre := rest.takeWhile (fun x => x ≠ '>')
      if !pre.isEmpty && pre.length < rest.length then
        removeAngleTagsF n (rest.drop (pre.length + 1))
      else c :: removeAngleTagsF n rest
    else c :: removeAngleTagsF n rest

/-- JavaScript `content.replace(/<[^>]+>/g, "")`. -/
def removeAngleTags (s : Str) : Str := removeAngleTagsF s.length s

/-- Rebuild the string the source passes to `parseTimeTag`
(`` `${match[1]}:${match[2]}.${match[3]}` ``) from a timestamp capture. -/
def tagToStr (m : Str × Str × Str) : Str := m.1 ++ ':' :: m.2.1 ++ '.' :: m.2.2

/-- The same reconstruction for a word-tag capture (which also carries the
captured word text as a fourth component). -/
def wordTagToStr (m : Str × Str × Str × Str) : Str := m.1 ++ ':' :: m.2.1 ++ '.' :: m.2.2.1

/-- Time of a word-tag capture as the source computes it. -/
def wordTagTime (m : Str × Str × Str × Str) : ℤ := (parseTimeTag (wordTagToStr m)).getD 0

/-! ## Line-timestamp parser (`lrc.ts`) -/

/-- Build the word list of `parseWordTags`: each tag's end time is the next
tag's start, the last tag gets one second; empty-text tags produce no word. -/
def buildWordsFromTags : List (Str × Str × Str × Str) → List LyricWord
  | [] => []
  | [m] =>
    if m.2.2.2 ≠ [] then [createWord m.2.2.2 (wordTagTime m) (wordTagTime m + 1000)] else []
  | m :: m2 :: rest =>
    (if m.2.2.2 ≠ [] then [createWord m.2.2.2 (wordTagTime m) (wordTagTime m2)] else []) ++
    buildWordsFromTags (m2 :: rest)

/-- `parseWordTags` of `lrc.ts`: inline word tags, the tag-stripped trimmed
full text, and the raw tag-match count. -/
def parseWordTags (content : Str) : Str × List LyricWord × ℕ :=
  let ms := scanWordTags content
  (trimStr (removeAngleTags content), mergePunctuationWords (buildWordsFromTags ms), ms.length)

/-- `parseLrcLine` of `lrc.ts`: one `ParsedLineData` per leading timestamp,
sharing the content after the last timestamp. -/
def parseLrcLine (line : Str) (originalIndex : ℕ) : List ParsedLineData :=
  let trimmed := trimStr line
  if trimmed.isEmpty then [] else
  let scanned := scanBracketTags trimmed
  if scanned.1.isEmpty then [] else
  let content := trimStr scanned.2
  let r := parseWordTags content
  let meta := isMetadataLine r.1
  scanned.1.map (fun m =>
    ⟨(parseTimeTag (tagToStr m)).getD 0, r.1, r.2.1, r.2.2, originalIndex, meta⟩)

/-- The comparator of the entry sort in `parseLrc` / `parseNeteaseLyrics`:
time difference when beyond the 0.01 s epsilon, else original index.
Boundary caveat: the source compares IEEE doubles, so at a difference of
exactly one epsilon the float test `> 0.01` may go either way depending on
rounding, while this exact-millisecond model always ties there; theorems
about the order therefore either avoid the boundary by hypothesis or use
inputs whose float trace agrees with the integer one. -/
def cmpEntries (a b : ParsedLineData) : ℤ :=
  if |a.time - b.time| > 10 then a.time - b.time
  else (a.originalIndex : ℤ) - (b.originalIndex : ℤ)

/-- The sort relation induced by `cmpEntries` (`comparator ≤ 0`). -/
def relEntries (a b : ParsedLineData) : Prop := cmpEntries a b ≤ 0

instance : DecidableRel relEntries :=
  fun a b => inferInstanceAs (Decidable (cmpEntries a b ≤ 0))

/-- The stable entry sort (`entries.sort(...)` of both parsers). -/
def sortEntries (es : List ParsedLineData) : List ParsedLineData :=
  List.insertionSort relEntries es

/-- The in-group priority comparator of `groupAndMergeLines`:
higher `tagCount` first, ties by `originalIndex`. -/
def cmpGroup (a b : ParsedLineData) : ℤ :=
  if a.tagCount ≠ b.tagCount then (b.tagCount : ℤ) - (a.tagCount : ℤ)
  else (a.originalIndex : ℤ) - (b.originalIndex : ℤ)

/-- The sort relation induced by `cmpGroup`. -/
def relGroup (a b : ParsedLineData) : Prop := cmpGroup a b ≤ 0

instance : DecidableRel relGroup :=
  fun a b => inferInstanceAs (Decidable (cmpGroup a b ≤ 0))

/-- Index of the main entry inside the priority-sorted group: first
non-metadata entry with meaningful content, else first meaningful entry,
else position 0 (the source's `find ?? find ?? group[0]` chain). -/
def mainIndex (s : List ParsedLineData) : ℕ :=
  match s.findIdx? (fun e => !e.isMetadata && hasMeaningfulContent e) with
  | some i => i
  | none =>
    match s.findIdx? hasMeaningfulContent with
    | some i => i
    | none => 0

/-- Emit one group of `groupAndMergeLines`: pick the main entry from the
priority-sorted group, discard metadata groups, and join the other members'
display texts into the translation. -/
def emitGroup (grp : List ParsedLineData) : List LyricLine :=
  let s := List.insertionSort relGroup grp
  let mi := mainIndex s
  match s[mi]? with
  | none => []
  | some main =>
    if main.isMetadata then [] else
    let d := getEntryDisplayText main
    let mainText := if d ≠ [] then d else main.text
    let normalizedMain := toLowerStr mainText
    let parts := (((s.eraseIdx mi).filter
        (fun e => !e.isMetadata && hasMeaningfulContent e)).map getEntryDisplayText).filter
        (fun t => !t.isEmpty && (normalizedMain.isEmpty || toLowerStr t != normalizedMain))
    let translation := if parts.isEmpty then none else some (joinWith '\n' parts)
    [⟨main.time, mainText, main.words, translation, false, none⟩]

/-- Fuelled grouping loop shared by the code-side and spec-side group
mergers: a forward-scanning window with strict threshold 0.1 s anchored at
the group's first entry. -/
def groupLoopWith (emit : List ParsedLineData → List LyricLine) :
    ℕ → List ParsedLineData → List LyricLine
  | _, [] => []
  | 0, _ :: _ => []
  | n + 1, e :: rest =>
    emit (e :: rest.takeWhile (fun x => |x.time - e.time| < 100)) ++
    groupLoopWith emit n (rest.dropWhile (fun x => |x.time - e.time| < 100))

/-- `groupAndMergeLines` of `lrc.ts`. -/
def groupAndMergeLines (entries : List ParsedLineData) : List LyricLine :=
  groupLoopWith emitGroup entries.length entries

/-- All entries `parseLrc` collects before sorting. -/
def lrcEntries (content : Str) : List ParsedLineData :=
  ((splitLines content).enum.map (fun p => parseLrcLine p.2 p.1)).flatten

/-- `parseLrc` of `lrc.ts`: parse, stable-sort, group, clamp word end times,
compute durations. -/
def parseLrc (content : Str) : List LyricLine :=
  processLyricsDurations (fixWordEndTimes (groupAndMergeLines (sortEntries (lrcEntries content))))

/-! ## Word-synced parser (`netease.ts`) -/

/-- The opening characters of the NetEase metadata object shape, written by
code point to keep source text plain: `{"t":`. -/
def jsonKeyT : Str := [lbrace, '"', 't', '"', ':']

/-- The fragment-array key of the metadata object: `,"c":[`. -/
def jsonKeyC : Str := [',', '"', 'c', '"', ':', '[']

/-- The opening of one fragment item: `{"tx":"`. -/
def jsonTxPre : Str := [lbrace, '"', 't', 'x', '"', ':', '"']

/-- Strip a literal prefix, or fail. -/
def dropLit (p s : Str) : Option Str :=
  if p.isPrefixOf s then some (s.drop p.length) else none

/-- Parse one `{"tx":"..."}` fragment (text up to the closing quote). -/
def parseJsonItem (s : Str) : Option (Str × Str) :=
  match dropLit jsonTxPre s with
  | none => none
  | some r =>
    let tx := r.takeWhile (fun c => c ≠ '"')
    match r.drop tx.length with
    | '"' :: c :: r2 => if c = rbrace then some (tx, r2) else none
    | _ => none

/-- Fuelled parse of the comma-separated fragment list up to `]`. -/
def parseJsonItemsF : ℕ → Str → Option (List Str × Str)
  | 0, _ => none
  | n + 1, s =>
    match s with
    | ']' :: r => some ([], r)
    | _ =>
      match parseJsonItem s with
      | none => none
      | some (tx, r) =>
        match r with
        | ',' :: r2 =>
          match parseJsonItemsF n r2 with
          | some (txs, r3) => some (tx :: txs, r3)
          | none => none
        | ']' :: r2 => some ([tx], r2)
        | _ => none

/-- The `JSON.parse` call of `parseJsonLine`, modelled for the canonical
NetEase metadata shape `{"t":<ms>,"c":[{"tx":"..."},...]}`; a brace-wrapped
line outside this subset behaves like the source's `catch` branch (the line
falls through to the next grammar). -/
def parseJsonMeta (s : Str) : Option (ℤ × Str) :=
  match dropLit jsonKeyT s with
  | none => none
  | some r =>
    let d := r.takeWhile Char.isDigit
    if d.isEmpty then none else
    match dropLit jsonKeyC (r.drop d.length) with
    | none => none
    | some r2 =>
      match parseJsonItemsF (r2.length + 1) r2 with
      | some (txs, rest) =>
        if rest = [rbrace] then some ((natOfDigits d : ℤ), txs.flatten) else none
      | none => none

/-- `parseJsonLine` of `netease.ts`: a metadata-object line becomes a
metadata entry at `t` ms with the concatenated fragment text. -/
def parseJsonLine (line : Str) (originalIndex : ℕ) : Option ParsedLineData :=
  match parseJsonMeta line with
  | some (t, text) => some ⟨t, text, [], 0, originalIndex, true⟩
  | none => none

/-- Match the anchored YRC line regex `^\[(\d+),(\d+)\](.*)`. -/
def matchYrcLine (s : Str) : Option (ℤ × ℤ × Str) :=
  match s with
  | '[' :: r =>
    let d1 := r.takeWhile Char.isDigit
    if d1.isEmpty then none else
    match r.drop d1.length with
    | ',' :: r2 =>
      let d2 := r2.takeWhile Char.isDigit
      if d2.isEmpty then none else
      match r2.drop d2.length with
      | ']' :: content => some ((natOfDigits d1 : ℤ), (natOfDigits d2 : ℤ), content)
      | _ => none
    | _ => none
  | _ => none

/-- Match the YRC word regex `\((\d+),(\d+),(\d+)\)([^\(]*)` at the head:
start ms, duration ms and following text (the flag capture is unused by the
source and dropped here). -/
def matchYrcWordAt (s : Str) : Option (ℤ × ℤ × Str) :=
  match s with
  | '(' :: r =>
    let d1 := r.takeWhile Char.isDigit
    if d1.isEmpty then none else
    match r.drop d1.length with
    | ',' :: r2 =>
      let d2 := r2.takeWhile Char.isDigit
      if d2.isEmpty then none else
      match r2.drop d2.length with
      | ',' :: r3 =>
        let d3 := r3.takeWhile Char.isDigit
        if d3.isEmpty then none else
        match r3.drop d3.length with
        | ')' :: r4 =>
          some ((natOfDigits d1 : ℤ), (natOfDigits d2 : ℤ), r4.takeWhile (fun c => c ≠ '('))
        | _ => none
      | _ => none
    | _ => none
  | _ => none

/-- `matchAll` of the YRC word regex over the line content. -/
def scanYrcWords : Str → List (ℤ × ℤ × Str)
  | [] => []
  | c :: rest =>
    match matchYrcWordAt (c :: rest) with
    | some cap => cap :: scanYrcWords rest
    | none => scanYrcWords rest

/-- `parseYrcLine` of `netease.ts`: a word-synced line with punctuation-merged
words and `tagCount = mergedWordCount + 1000`. -/
def parseYrcLine (line : Str) (originalIndex : ℕ) : Option ParsedLineData :=
  match matchYrcLine line with
  | none => none
  | some (startMs, _dur, content) =>
    let ms := scanYrcWords content
    let fullText := if ms.isEmpty then content else (ms.map (fun m => m.2.2)).flatten
    let mergedWords := mergePunctuationWords (ms.map (fun m => createWord m.2.2 m.1 (m.1 + m.2.1)))
    some ⟨startMs, fullText, mergedWords, mergedWords.length + 1000, originalIndex,
      isMetadataLine fullText⟩

/-- First (unanchored) occurrence of `LRC_LINE_REGEX`
`\[(\d{2}):(\d{2})\.(\d{2,3})\](.*)` in a line, with the trailing capture. -/
def matchLrcLine : Str → Option ((Str × Str × Str) × Str)
  | [] => none
  | c :: rest =>
    match matchBracketTagAt (c :: rest) with
    | some r => some r
    | none => matchLrcLine rest

/-- `parseFallbackLrcLine` of `netease.ts`: a plain line-timestamp entry with
`tagCount = 0`. -/
def parseFallbackLrcLine (line : Str) (originalIndex : ℕ) : Option ParsedLineData :=
  match matchLrcLine line with
  | none => none
  | some (m, rest) =>
    let text := trimStr rest
    some ⟨(parseTimeTag (tagToStr m)).getD 0, text, [], 0, originalIndex, isMetadataLine text⟩

/-- One word of `fixAbnormalWordDurations`: duration capped at 2 s, end time
clamped to the permissible maximum, then forced past the start if needed. -/
def fixOneWord (w : LyricWord) (maxEndTime : ℤ) : LyricWord :=
  let e1 := if w.endTime - w.startTime > 2000 then min (w.startTime + 2000) maxEndTime
            else w.endTime
  let e2 := if e1 > maxEndTime then maxEndTime else e1
  ⟨w.startTime, if e2 ≤ w.startTime then w.startTime + 100 else e2, w.text⟩

/-- The per-line pass of `fixAbnormalWordDurations`: each word's maximum end
time is the next word's start, else the next entry's time, else its own
start plus the 2 s ceiling. -/
def fixWordsInLine (nextEntryTime : Option ℤ) : List LyricWord → List LyricWord
  | [] => []
  | [w] =>
    [fixOneWord w (match nextEntryTime with | some t => t | none => w.startTime + 2000)]
  | w :: w2 :: r => fixOneWord w w2.startTime :: fixWordsInLine nextEntryTime (w2 :: r)

/-- `fixAbnormalWordDurations` of `netease.ts` (defined by the source but
invoked from no pipeline). -/
def fixAbnormalWordDurations : List ParsedLineData → List ParsedLineData
  | [] => []
  | [e] => [{ e with words := fixWordsInLine none e.words }]
  | e :: e2 :: r =>
    { e with words := fixWordsInLine (some e2.time) e.words } ::
      fixAbnormalWordDurations (e2 :: r)

/-- The nearest-bucket scan of `mergeYrcWithTranslations`: index and absolute
time difference of the closest bucket main, first bucket winning ties. -/
def nearestBucketIdx (mains : List ParsedLineData) (t : ℤ) : Option (ℕ × ℤ) :=
  mains.enum.foldl (fun best p =>
    let diff := |p.2.time - t|
    match best with
    | none => some (p.1, diff)
    | some b => if diff < b.2 then some (p.1, diff) else some b) none

/-- The other-line assignment loop of `mergeYrcWithTranslations`: metadata
lines are skipped, matched lines push their display text into the closest
bucket's translation list, the rest accumulate as orphans. -/
def assignLoop (mains : List ParsedLineData) :
    List (List Str) → List ParsedLineData → List ParsedLineData →
    List (List Str) × List ParsedLineData
  | bts, orphans, [] => (bts, orphans)
  | bts, orphans, o :: os =>
    if o.isMetadata then assignLoop mains bts orphans os else
    match nearestBucketIdx mains o.time with
    | some (i, d) =>
      if d < 3000 then
        let t := getEntryDisplayText o
        if !t.isEmpty then assignLoop mains (bts.set i (bts.getD i [] ++ [t])) orphans os
        else assignLoop mains bts (orphans ++ [o]) os
      else assignLoop mains bts (orphans ++ [o]) os
    | none => assignLoop mains bts (orphans ++ [o]) os

/-- Emit one bucket of `mergeYrcWithTranslations` (with its original index
kept for the final sort); metadata mains emit nothing. -/
def mkBucketLine (main : ParsedLineData) (translations : List Str) : List (LyricLine × ℕ) :=
  let mainText := getEntryDisplayText main
  let normalizedMain := toLowerStr mainText
  let ts := (translations.map trimStr).filter
      (fun t => !t.isEmpty && (normalizedMain.isEmpty || toLowerStr t != normalizedMain))
  if main.isMetadata then [] else
  [(⟨main.time, if mainText ≠ [] then mainText else main.text, main.words,
      if ts.isEmpty then none else some (joinWith '\n' ts), true, none⟩, main.originalIndex)]

/-- Emit one orphan of `mergeYrcWithTranslations`; metadata orphans are
skipped. -/
def mkOrphanLine (o : ParsedLineData) : List (LyricLine × ℕ) :=
  if o.isMetadata then [] else
  let t := getEntryDisplayText o
  [(⟨o.time, if t ≠ [] then t else o.text, o.words, none, false, none⟩, o.originalIndex)]

/-- The final sort comparator of `mergeYrcWithTranslations`: time difference
beyond the 0.001 s epsilon, else the kept original index.  The same
boundary caveat as `cmpEntries` applies at a difference of exactly 1 ms:
the float test ties only where the double subtraction is exact (as at
0.002 − 0.001), which the chosen counterexample input respects. -/
def cmpLineIdx (a b : LyricLine × ℕ) : ℤ :=
  if |a.1.time - b.1.time| > 1 then a.1.time - b.1.time else (a.2 : ℤ) - (b.2 : ℤ)

/-- The sort relation induced by `cmpLineIdx`. -/
def relLineIdx (a b : LyricLine × ℕ) : Prop := cmpLineIdx a b ≤ 0

instance : DecidableRel relLineIdx :=
  fun a b => inferInstanceAs (Decidable (cmpLineIdx a b ≤ 0))

/-- `mergeYrcWithTranslations` of `netease.ts`. -/
def mergeYrcWithTranslations (entries : List ParsedLineData) : List LyricLine :=
  let yrcLines := entries.filter (fun e => decide (1000 ≤ e.tagCount))
  let otherLines := entries.filter (fun e => decide (e.tagCount < 1000))
  let r := assignLoop yrcLines (yrcLines.map (fun _ => [])) [] otherLines
  let pre := ((yrcLines.zip r.1).map (fun p => mkBucketLine p.1 p.2)).flatten ++
    (r.2.map mkOrphanLine).flatten
  (List.insertionSort relLineIdx pre).map Prod.fst

/-- One raw line of `parseNeteaseLyrics`: metadata object, then YRC, then
fallback LRC, in that precedence order; blank lines contribute nothing. -/
def neteaseParseLine (line : Str) (originalIndex : ℕ) : Option ParsedLineData :=
  let t := trimStr line
  if t.isEmpty then none else
  match (if t.head? = some lbrace ∧ t.getLast? = some rbrace
         then parseJsonLine t originalIndex else none) with
  | some e => some e
  | none =>
    match parseYrcLine t originalIndex with
    | some e => some e
    | none => parseFallbackLrcLine t originalIndex

/-- All entries `parseNeteaseLyrics` collects before sorting. -/
def neteaseEntries (content : Str) : List ParsedLineData :=
  ((splitLines content).enum.map (fun p => (neteaseParseLine p.2 p.1).toList)).flatten

/-- `parseNeteaseLyrics` of `netease.ts`. -/
def parseNeteaseLyrics (content : Str) : List LyricLine :=
  let es := sortEntries (neteaseEntries content)
  if es.any (fun e => decide (1000 ≤ e.tagCount)) then mergeYrcWithTranslations es
  else (es.filter (fun e => !e.isMetadata && hasMeaningfulContent e)).map
    (fun e => ⟨e.time, (if getEntryDisplayText e ≠ [] then getEntryDisplayText e else e.text),
      e.words, none, false, none⟩)

/-- The fragment-array marker `"c":[` of the format detector. -/
def cMarker : Str := ['"', 'c', '"', ':', '[']

/-- `isNeteaseFormat` of `netease.ts`. -/
def isNeteaseFormat (content : Str) : Bool :=
  (splitLines content).any (fun l =>
    (matchYrcLine (trimStr l)).isSome ||
    ((trimStr l).head? == some lbrace && decide (cMarker <:+: trimStr l)))

/-! ## Translation merger (`translation.ts`) -/

/-- The translation multimap: quantized time key to ordered list of texts,
in `Map` insertion order. -/
abbrev TMap := List (ℤ × List Str)

/-- Replace the first binding of a key, appending when absent (the `Map.set`
behaviour; in-place bucket mutation of the source reaches the same state). -/
def tmapSet (m : TMap) (k : ℤ) (v : List Str) : TMap :=
  match m with
  | [] => [(k, v)]
  | kv :: rest => if kv.1 = k then (k, v) :: rest else kv :: tmapSet rest k v

/-- Remove the binding of a key (`Map.delete`). -/
def tmapErase (m : TMap) (k : ℤ) : TMap :=
  match m with
  | [] => []
  | kv :: rest => if kv.1 = k then rest else kv :: tmapErase rest k

/-- The `addEntry` closure of `buildTranslationMap`: trim, drop empty and
metadata texts, and push onto the quantized-key bucket. -/
def addEntry (m : TMap) (time : ℤ) (text : Str) : TMap :=
  let cleaned := trimStr text
  if cleaned.isEmpty || isMetadataLine cleaned then m
  else
    let key := normalizeTimeKey time
    match m.lookup key with
    | some l => tmapSet m key (l ++ [cleaned])
    | none => m ++ [(key, [cleaned])]

/-- One raw line of `buildTranslationMap`: metadata-object, then YRC, then
LRC, in the same precedence order as the main parser. -/
def transParseLine (m : TMap) (rawLine : Str) : TMap :=
  let line := trimStr rawLine
  if line.isEmpty then m else
  match (if line.head? = some lbrace ∧ line.getLast? = some rbrace
         then parseJsonMeta line else none) with
  | some (t, text) => addEntry m t text
  | none =>
    match matchYrcLine line with
    | some (startMs, _d, content) =>
      let ms := scanYrcWords content
      addEntry m startMs (if ms.isEmpty then content else (ms.map (fun w => w.2.2)).flatten)
    | none =>
      match matchLrcLine line with
      | some (cap, rest) => addEntry m ((parseTimeTag (tagToStr cap)).getD 0) (trimStr rest)
      | none => m

/-- `buildTranslationMap` of `translation.ts`. -/
def buildTranslationMap (translationContent : Option Str) : TMap :=
  match translationContent with
  | none => []
  | some c => (splitLines c).foldl transParseLine []

/-- The fallback scan of `takeTranslationForLine` (`translationMap.forEach`
in `Map` insertion order): the first-scanned non-empty bucket at minimal
key distance within tolerance, with its distance. -/
def fallbackKeyScan (m : TMap) (key tol : ℤ) : Option (ℤ × ℤ) :=
  m.foldl (fun best kv =>
    if kv.2.isEmpty then best else
    let diff := |kv.1 - key|
    match best with
    | none => if diff ≤ tol then some (kv.1, diff) else none
    | some b => if diff ≤ tol ∧ diff < b.2 then some (kv.1, diff) else some b) none

/-- `takeTranslationForLine` of `translation.ts`: exact quantized-key FIFO
pop first, else pop from the first-scanned closest non-empty bucket within
the precision-dependent tolerance; the updated map is returned. -/
def takeTranslationForLine (m : TMap) (line : LyricLine) : Option Str × TMap :=
  let key := normalizeTimeKey line.time
  match m.lookup key with
  | some (v :: rest) => (some v, if rest.isEmpty then tmapErase m key else tmapSet m key rest)
  | _ =>
    match fallbackKeyScan m key (if line.isPreciseTiming then 3000 else 250) with
    | none => (none, m)
    | some fk =>
      match m.lookup fk.1 with
      | some (v :: rest) =>
        (some v, if rest.isEmpty then tmapErase m fk.1 else tmapSet m fk.1 rest)
      | _ => (none, m)

/-- The per-line update of `mergeTranslations`: a non-empty trimmed external
translation overwrites, anything else keeps the line unchanged. -/
def applyTranslation (line : LyricLine) (ext : Option Str) : LyricLine :=
  match ext with
  | some e =>
    let te := trimStr e
    if te.isEmpty then line else { line with translation := some te }
  | none => line

/-- The `lines.map` of `mergeTranslations` with the map state threaded
through the consuming closure. -/
def mergeTransGo : TMap → List LyricLine → List LyricLine
  | _, [] => []
  | m, l :: ls =>
    let r := takeTranslationForLine m l
    applyTranslation l r.1 :: mergeTransGo r.2 ls

/-- `mergeTranslations` of `translation.ts`. -/
def mergeTranslations (lines : List LyricLine) (translationContent : Option Str) :
    List LyricLine :=
  match translationContent with
  | none => lines
  | some c =>
    if (trimStr c).isEmpty then lines else
    let m := buildTranslationMap (some c)
    if m.isEmpty then lines else mergeTransGo m lines

/-! ## Orchestrator (`index.ts`) -/

/-- `parseLyrics` of `index.ts`: blank content yields nothing; format
detection dispatches to the word-synced or line-timestamp parser; a
non-blank translation blob is merged; durations are computed last. -/
def parseLyrics (content : Str) (translationContent : Option Str) : List LyricLine :=
  if (trimStr content).isEmpty then [] else
  let lines := if isNeteaseFormat content then parseNeteaseLyrics content else parseLrc content
  let lines2 :=
    match translationContent with
    | some t => if (trimStr t).isEmpty then lines else mergeTranslations lines (some t)
    | none => lines
  processLyricsDurations lines2

/-! ## Spec-side reformulations

Declarative counterparts of the source algorithms, built from the claims'
wording; the claim theorems compare them with the code-side definitions. -/

/-- Strictly higher priority per the grouping claim: higher `tagCount`,
ties by lower `originalIndex`. -/
def betterCand (a b : ParsedLineData) : Bool :=
  decide (b.tagCount < a.tagCount) ||
  (a.tagCount == b.tagCount && decide (a.originalIndex < b.originalIndex))

/-- First maximum-priority entry of a list (left fold, first kept on full
ties). -/
def bestOf (l : List ParsedLineData) : Option ParsedLineData :=
  l.foldl (fun best e =>
    match best with
    | none => some e
    | some b => if betterCand e b then some e else some b) none

/-- Main-entry choice as the grouping claim words it: the highest-priority
non-metadata entry with meaningful content, else the highest-priority
meaningful entry, else the highest-priority entry of the group. -/
def chooseMain (grp : List ParsedLineData) : Option ParsedLineData :=
  match bestOf (grp.filter (fun e => !e.isMetadata && hasMeaningfulContent e)) with
  | some m => some m
  | none =>
    match bestOf (grp.filter hasMeaningfulContent) with
    | some m => some m
    | none => bestOf grp

/-- Spec-side group emission: chosen main, metadata groups discarded, the
other non-metadata meaningful members' display texts minus those
case-insensitively equal to the main text joined by newline. -/
def specEmitGroup (grp : List ParsedLineData) : List LyricLine :=
  let s := List.insertionSort relGroup grp
  match chooseMain s with
  | none => []
  | some main =>
    if main.isMetadata then [] else
    let d := getEntryDisplayText main
    let mainText := if d ≠ [] then d else main.text
    let parts := (((s.erase main).filter
        (fun e => !e.isMetadata && hasMeaningfulContent e)).map getEntryDisplayText).filter
        (fun t => !t.isEmpty && toLowerStr t != toLowerStr mainText)
    [⟨main.time, mainText, main.words,
      if parts.isEmpty then none else some (joinWith '\n' parts), false, none⟩]

/-- Spec-side grouping pipeline (same forward-scanning window). -/
def specGroupAndMergeLines (entries : List ParsedLineData) : List LyricLine :=
  groupLoopWith specEmitGroup entries.length entries

/-- Bucket assignment of one non-metadata secondary entry, as the
word-synced merging claim words it (amended): the nearest bucket, accepted
only below the 3 s tolerance and only for a non-empty display text. -/
def assignedIdx (mains : List ParsedLineData) (o : ParsedLineData) : Option ℕ :=
  match nearestBucketIdx mains o.time with
  | some (i, d) => if d < 3000 ∧ getEntryDisplayText o ≠ [] then some i else none
  | none => none

/-- The translation texts the claim assigns to bucket `i`: display texts of
the non-metadata secondary entries whose nearest-bucket assignment is `i`,
in input order. -/
def bucketTexts (mains : List ParsedLineData) (os : List ParsedLineData) (i : ℕ) : List Str :=
  ((os.filter (fun o => !o.isMetadata)).filter
    (fun o => assignedIdx mains o == some i)).map getEntryDisplayText

/-- Spec-side (declarative) word-synced merger: per-bucket translation lists
and the orphan list are direct filters of the secondary entries. -/
def specMergeYrc (entries : List ParsedLineData) : List LyricLine :=
  let mains := entries.filter (fun e => decide (1000 ≤ e.tagCount))
  let others := entries.filter (fun e => decide (e.tagCount < 1000))
  let bucketPart := (mains.enum.map (fun p =>
      mkBucketLine p.2 (bucketTexts mains others p.1))).flatten
  let orphanPart := ((others.filter
      (fun o => !o.isMetadata && (assignedIdx mains o).isNone)).map mkOrphanLine).flatten
  (List.insertionSort relLineIdx (bucketPart ++ orphanPart)).map Prod.fst

/-- Spec-side fallback selection of the translation merger (amended): among
the non-empty buckets within tolerance of the line's quantized time key,
the first-inserted one at minimal key distance. -/
def specTakeTranslation (m : TMap) (line : LyricLine) : Option Str × TMap :=
  let key := normalizeTimeKey line.time
  match m.lookup key with
  | some (v :: rest) => (some v, if rest.isEmpty then tmapErase m key else tmapSet m key rest)
  | _ =>
    let tol : ℤ := if line.isPreciseTiming then 3000 else 250
    let cands := m.filter (fun kv => !kv.2.isEmpty && decide (|kv.1 - key| ≤ tol))
    match cands.argmin (fun kv => |kv.1 - key|) with
    | none => (none, m)
    | some kv =>
      match m.lookup kv.1 with
      | some (v :: rest) =>
        (some v, if rest.isEmpty then tmapErase m kv.1 else tmapSet m kv.1 rest)
      | _ => (none, m)

/-! ## Instrumented view of the translation-consuming run -/

/-- The consuming run of `mergeTranslations`, exposing the per-line consumed
values and the final map state (the `lines.map` of the source with its
closure state made explicit). -/
def mergeTransSteps : TMap → List LyricLine → List (Option Str) × TMap
  | m, [] => ([], m)
  | m, l :: ls =>
    let r := takeTranslationForLine m l
    let rest := mergeTransSteps r.2 ls
    (r.1 :: rest.1, rest.2)

/-- Bucket of a key (the empty list when the key is absent). -/
def tmapBucket (m : TMap) (k : ℤ) : List Str := (m.lookup k).getD []

/-- Total number of stored translation texts. -/
def tmapSize (m : TMap) : ℕ := (m.map (fun kv => kv.2.length)).sum

/-- Key list of the map, in insertion order. -/
def tmapKeys (m : TMap) : List ℤ := m.map Prod.fst

/-- A line whose translation, if present, is non-empty after trimming. -/
def transOk (l : LyricLine) : Prop := ∀ t, l.translation = some t → trimStr t ≠ []

/-! ## String lemmas -/

theorem dropWhile_head_false {p : α → Bool} :
    ∀ {l : List α} {c : α} {t : List α}, l.dropWhile p = c :: t → p c = false := by
  intro l
  induction l with
  | nil => intro c t h; simp [List.dropWhile] at h
  | cons a l ih =>
    intro c t h
    by_cases hp : p a
    · rw [List.dropWhile_cons_of_pos hp] at h; exact ih h
    · rw [List.dropWhile_cons_of_neg hp] at h
      cases h; simpa using hp

theorem mem_dropWhile_of_not {p : α → Bool} {c : α} :
    ∀ {l : List α}, c ∈ l → p c = false → c ∈ l.dropWhile p := by
  intro l
  induction l with
  | nil => intro h; simp at h
  | cons a l ih =>
    intro h hc
    by_cases hp : p a
    · rw [List.dropWhile_cons_of_pos hp]
      rcases List.mem_cons.1 h with rfl | h'
      · simp [hp] at hc
      · exact ih h' hc
    · rw [List.dropWhile_cons_of_neg hp]
      exact h

theorem forall_dropWhile_iff {p : α → Bool} {l : List α} :
    (∀ c ∈ l.dropWhile p, p c) ↔ (∀ c ∈ l, p c) := by
  constructor
  · intro h c hc
    by_cases hp : p c
    · exact hp
    · exact h c (mem_dropWhile_of_not hc (by simpa using hp))
  · intro h c hc
    exact h c ((List.dropWhile_sublist p).mem hc)

theorem trimStr_eq_nil_iff {s : Str} :
    trimStr s = [] ↔ ∀ c ∈ s, c.isWhitespace := by
  unfold trimStr
  rw [List.reverse_eq_nil_iff, List.dropWhile_eq_nil_iff]
  constructor
  · intro h c hc
    by_cases hw : c.isWhitespace
    · exact hw
    · exact absurd (h c (by
        simpa using mem_dropWhile_of_not hc (by simpa using hw))) (by simpa using hw)
  · intro h c hc
    exact h c ((List.dropWhile_sublist _).mem (by simpa using hc))

theorem mem_of_mem_trimStr {s : Str} {c : Char} (h : c ∈ trimStr s) : c ∈ s := by
  unfold trimStr at h
  have h2 := (List.dropWhile_sublist Char.isWhitespace).mem (List.mem_reverse.1 h)
  exact (List.dropWhile_sublist Char.isWhitespace).mem (List.mem_reverse.1 h2)

theorem trimStr_ne_nil_of_mem {s : Str} {c : Char} (hc : c ∈ s)
    (hw : c.isWhitespace = false) : trimStr s ≠ [] := by
  intro h
  rw [trimStr_eq_nil_iff] at h
  rw [h c hc] at hw
  exact Bool.noConfusion hw

theorem exists_nonws_of_trimStr_ne_nil {s : Str} (h : trimStr s ≠ []) :
    ∃ c ∈ trimStr s, c.isWhitespace = false := by
  cases h1 : s.dropWhile Char.isWhitespace with
  | nil => exact absurd (by simp [trimStr, h1]) h
  | cons c t =>
    have hw : c.isWhitespace = false := dropWhile_head_false h1
    refine ⟨c, ?_, hw⟩
    unfold trimStr
    rw [h1]
    simpa using mem_dropWhile_of_not (by simp) hw

theorem mem_joinWith_of_mem {sep : Char} {parts : List Str} {p : Str} {c : Char}
    (hp : p ∈ parts) (hc : c ∈ p) : c ∈ joinWith sep parts := by
  induction parts with
  | nil => simp at hp
  | cons x xs ih =>
    cases xs with
    | nil =>
      rcases List.mem_cons.1 hp with rfl | h
      · simpa [joinWith] using hc
      · simp at h
    | cons y ys =>
      rcases List.mem_cons.1 hp with rfl | h
      · exact List.mem_append.2 (Or.inl hc)
      · exact List.mem_append.2 (Or.inr (List.mem_cons.2 (Or.inr (ih h))))

theorem trimStr_joinWith_ne_nil {sep : Char} {parts : List Str} {p : Str}
    (hp : p ∈ parts) (h : trimStr p ≠ []) : trimStr (joinWith sep parts) ≠ [] := by
  obtain ⟨c, hcp, hcw⟩ := exists_nonws_of_trimStr_ne_nil h
  exact trimStr_ne_nil_of_mem (mem_joinWith_of_mem hp (mem_of_mem_trimStr hcp)) hcw

/-! ## Duration post-processor lemmas -/

theorem processLyricsDurations_map_time (ls : List LyricLine) :
    (processLyricsDurations ls).map LyricLine.time = ls.map LyricLine.time := by
  induction ls with
  | nil => rfl
  | cons a t ih =>
    cases t with
    | nil => rfl
    | cons b r => simpa [processLyricsDurations] using ih

theorem processLyricsDurations_head_time (ls : List LyricLine) :
    (processLyricsDurations ls).head?.map LyricLine.time = ls.head?.map LyricLine.time := by
  have h := processLyricsDurations_map_time ls
  cases hls : processLyricsDurations ls with
  | nil =>
    rw [hls] at h
    cases ls with
    | nil => rfl
    | cons a t => simp at h
  | cons c rest =>
    rw [hls] at h
    cases ls with
    | nil => simp at h
    | cons a t =>
      simp only [List.map_cons, List.cons.injEq] at h
      simp [h.1]

/-- C8: the Duration/Interlude post-processor is idempotent: applying
`processLyricsDurations` to its own output yields an identical line
sequence (each duration is recomputed from the unchanged times; the last
line keeps the fixed 5 s default). -/
theorem C8_theorem (lines : List LyricLine) :
    processLyricsDurations (processLyricsDurations lines) = processLyricsDurations lines := by
  induction lines with
  | nil => rfl
  | cons a t ih =>
    cases t with
    | nil => rfl
    | cons b r =>
      have hhead := processLyricsDurations_head_time (b :: r)
      cases hbr : processLyricsDurations (b :: r) with
      | nil => simp [hbr] at hhead
      | cons c rest =>
        rw [hbr] at hhead
        simp only [List.head?_cons, Option.map_some] at hhead
        have hc : c.time = b.time := by simpa using hhead
        calc processLyricsDurations (processLyricsDurations (a :: b :: r))
            = processLyricsDurations
                ({ a with duration := some (b.time - a.time) } :: c :: rest) := by
              simp [processLyricsDurations, hbr]
          _ = { a with duration := some (c.time - a.time) } ::
                processLyricsDurations (c :: rest) := by
              simp [processLyricsDurations]
          _ = { a with duration := some (b.time - a.time) } ::
                processLyricsDurations (b :: r) := by
              rw [hc, ← hbr, ih]
          _ = processLyricsDurations (a :: b :: r) := by
              simp [processLyricsDurations]

/-! ## Counterexamples and the dead-sanitizer evaluation -/

/-- C2: the word-synced pipeline applies no word-duration sanitization:
`parseNeteaseLyrics` keeps a 5 s word (duration `5000 > 2000`), while the
defined but never-invoked `fixAbnormalWordDurations` would have clamped the
same parsed entry to the 2 s ceiling. -/
theorem C2_theorem :
    parseNeteaseLyrics "[0,10000](0,5000,0)Hello".toList =
      [⟨0, "Hello".toList, [⟨0, 5000, "Hello".toList⟩], none, true, none⟩] ∧
    ¬ ((5000 : ℤ) - 0 ≤ 2000) ∧
    fixAbnormalWordDurations (neteaseEntries "[0,10000](0,5000,0)Hello".toList) =
      [⟨0, "Hello".toList, [⟨0, 2000, "Hello".toList⟩], 1001, 0, false⟩] := by
  refine ⟨by decide, by decide, by decide⟩

/-- C1 counterexample: `parseLyrics` with an external translation track can
emit a line whose translation is (case-insensitively, even literally)
identical to the line's text, refuting the claimed invariant. -/
theorem C1_counterexample :
    (parseLyrics "[00:10.00]Hello".toList (some "[00:10.00]Hello".toList)).map
      (fun l => (l.translation.map toLowerStr == some (toLowerStr (trimStr l.text)) : Bool)) =
      [true] := by
  decide

/-- C3 counterexample: two word-synced lines at 2 ms and 1 ms are tie-broken
by input position by both sort comparators, so `parseLyrics` emits times
`[2, 1]` — not sorted non-decreasing by time.  The input is chosen so the
trace is float-robust: in IEEE doubles `0.002 - 0.001` is exact (Sterbenz)
and equals the double nearest `0.001`, so the source's `diff > 0.001` test
is false there, exactly as this model's `|2 - 1| > 1` is. -/
theorem C3_counterexample :
    ¬ List.Pairwise (fun a b : LyricLine => a.time ≤ b.time)
      (parseLyrics "[2,500](2,500,0)A\n[1,500](1,500,0)B".toList none) := by
  decide

/-- C4 counterexample: for a line at 10.004 s (quantized key 10.00 s) with
buckets at 9.99 s (text `X`, inserted first) and 10.01 s (text `Y`),
`mergeTranslations` attaches `X`, although the 10.01 s bucket is strictly
nearer to the line's raw time and within the 0.25 s tolerance — the claimed
minimal-raw-distance selection is refuted (the code measures distances
between quantized keys). -/
theorem C4_counterexample :
    buildTranslationMap (some "[00:09.99]X\n[00:10.01]Y".toList) =
      [(9990, ["X".toList]), (10010, ["Y".toList])] ∧
    mergeTranslations [⟨10004, "A".toList, [], none, false, none⟩]
        (some "[00:09.99]X\n[00:10.01]Y".toList) =
      [⟨10004, "A".toList, [], some "X".toList, false, none⟩] ∧
    |(10010 : ℤ) - 10004| < |(9990 : ℤ) - 10004| ∧ |(10010 : ℤ) - 10004| ≤ 250 := by
  refine ⟨by decide, by decide, by decide, by decide⟩

/-- C7 counterexample: a non-metadata fallback entry at exactly the bucket's
time (difference `0 < 3000`) but with empty display text is not assigned to
the bucket; `parseNeteaseLyrics` emits it as an extra empty orphan line,
refuting the claimed orphan characterization. -/
theorem C7_counterexample :
    parseNeteaseLyrics "[10000,1000](10000,500,0)Hi\n[00:10.00]".toList =
      [⟨10000, "Hi".toList, [⟨10000, 10500, "Hi".toList⟩], none, true, none⟩,
       ⟨10000, [], [], none, false, none⟩] ∧
    (neteaseEntries "[10000,1000](10000,500,0)Hi\n[00:10.00]".toList).map
      ParsedLineData.time = [10000, 10000] := by
  refine ⟨by decide, by decide⟩

/-! ## Digit-capture lemmas for the timestamp matchers -/

theorem takeWhile_digits_append {m : Str} {b : Char} {r : Str}
    (hm : ∀ c ∈ m, c.isDigit = true) (hb : b.isDigit = false) :
    (m ++ b :: r).takeWhile Char.isDigit = m ∧
    (m ++ b :: r).dropWhile Char.isDigit = b :: r := by
  induction m with
  | nil => simp [List.takeWhile, List.dropWhile, hb]
  | cons a t ih =>
    have ha : a.isDigit = true := hm a (by simp)
    have iht := ih (fun c hc => hm c (by simp [hc]))
    simp [List.takeWhile_cons, List.dropWhile_cons, ha, iht.1, iht.2]

theorem parseTimeTag_isSome_of_digits {m s f t : Str}
    (ht : t = m ++ ':' :: (s ++ '.' :: f))
    (hm : ∀ c ∈ m, c.isDigit = true) (hmn : m ≠ [])
    (hs : ∀ c ∈ s, c.isDigit = true) (hsn : s ≠ [])
    (hf : ∀ c ∈ f, c.isDigit = true) (hfl : f.length = 2 ∨ f.length = 3) :
    (parseTimeTag t).isSome = true := by
  subst ht
  have h1 := @takeWhile_digits_append m ':' (s ++ '.' :: f) hm (by decide)
  have h2 := @takeWhile_digits_append s '.' f hs (by decide)
  have h3 : f.takeWhile Char.isDigit = f := List.takeWhile_eq_self_iff.2 hf
  have h4 : f.dropWhile Char.isDigit = [] := List.dropWhile_eq_nil_iff.2 hf
  unfold parseTimeTag
  simp only [h1.1, h1.2, h2.1, h2.2, h3, h4]
  simp [hmn, hsn, hfl]

theorem takeDigits2_some {s d r : Str} (h : takeDigits2 s = some (d, r)) :
    (∀ c ∈ d, c.isDigit = true) ∧ d.length = 2 := by
  cases s with
  | nil => simp [takeDigits2] at h
  | cons a t =>
    cases t with
    | nil => simp [takeDigits2] at h
    | cons b t2 =>
      simp only [takeDigits2] at h
      split at h
      · rename_i hd
        simp only [Bool.and_eq_true] at hd
        injection h with h'
        injection h' with h1 h2
        subst h1
        refine ⟨?_, rfl⟩
        intro c hc
        simp only [List.mem_cons, List.not_mem_nil, or_false] at hc
        rcases hc with rfl | rfl
        · exact hd.1
        · exact hd.2
      · exact absurd h (by simp)

theorem takeFrac_some {cl : Char} {s f r : Str} (h : takeFrac cl s = some (f, r)) :
    (∀ c ∈ f, c.isDigit = true) ∧ (f.length = 2 ∨ f.length = 3) := by
  cases s with
  | nil => simp [takeFrac] at h
  | cons a s1 =>
    cases s1 with
    | nil => simp [takeFrac] at h
    | cons b s2 =>
      cases s2 with
      | nil => simp [takeFrac] at h
      | cons c s3 =>
        cases s3 with
        | nil =>
          simp only [takeFrac] at h
          split at h
          · rename_i hd
            simp only [Bool.and_eq_true] at hd
            injection h with h'
            injection h' with h1 h2
            subst h1
            refine ⟨?_, Or.inl rfl⟩
            intro x hx
            simp only [List.mem_cons, List.not_mem_nil, or_false] at hx
            rcases hx with rfl | rfl
            · exact hd.1.1
            · exact hd.1.2
          · exact absurd h (by simp)
        | cons d s4 =>
          simp only [takeFrac] at h
          split at h
          · rename_i hab
            simp only [Bool.and_eq_true] at hab
            split at h
            · rename_i hcd
              simp only [Bool.and_eq_true] at hcd
              injection h with h'
              injection h' with h1 h2
              subst h1
              refine ⟨?_, Or.inr rfl⟩
              intro x hx
              simp only [List.mem_cons, List.not_mem_nil, or_false] at hx
              rcases hx with rfl | rfl | rfl
              · exact hab.1
              · exact hab.2
              · exact hcd.1
            · split at h
              · injection h with h'
                injection h' with h1 h2
                subst h1
                refine ⟨?_, Or.inl rfl⟩
                intro x hx
                simp only [List.mem_cons, List.not_mem_nil, or_false] at hx
                rcases hx with rfl | rfl
                · exact hab.1
                · exact hab.2
              · exact absurd h (by simp)
          · exact absurd h (by simp)

theorem matchBracketTagAt_some {s : Str} {cap : Str × Str × Str} {rest : Str}
    (h : matchBracketTagAt s = some (cap, rest)) :
    (parseTimeTag (tagToStr cap)).isSome = true := by
  simp only [matchBracketTagAt, Option.bind_eq_some, Option.map_eq_some'] at h
  obtain ⟨r, -, p1, hp1, r2, -, p2, hp2, r4, -, p3, hp3, heq⟩ := h
  obtain ⟨d1, r1⟩ := p1
  obtain ⟨d2, r3⟩ := p2
  obtain ⟨fr, r5⟩ := p3
  injection heq with h1 h2
  subst h1
  have g1 := takeDigits2_some hp1
  have g2 := takeDigits2_some hp2
  have g3 := takeFrac_some hp3
  have hmn : d1 ≠ [] := by intro hnil; rw [hnil] at g1; simp at g1
  have hsn : d2 ≠ [] := by intro hnil; rw [hnil] at g2; simp at g2
  exact parseTimeTag_isSome_of_digits (by simp [tagToStr]) g1.1 hmn g2.1 hsn g3.1 g3.2

theorem matchLrcLine_parseTimeTag {s : Str} {cap : Str × Str × Str} {rest : Str}
    (h : matchLrcLine s = some (cap, rest)) :
    (parseTimeTag (tagToStr cap)).isSome = true := by
  induction s with
  | nil => simp [matchLrcLine] at h
  | cons c r ih =>
    simp only [matchLrcLine] at h
    cases hm : matchBracketTagAt (c :: r) with
    | some p =>
      rw [hm] at h
      injection h with h'
      subst h'
      exact matchBracketTagAt_some hm
    | none =>
      rw [hm] at h
      exact ih h

theorem scanBracketTags_parseTimeTag {s : Str} {cap : Str × Str × Str}
    (h : cap ∈ (scanBracketTags s).1) :
    (parseTimeTag (tagToStr cap)).isSome = true := by
  induction s with
  | nil => simp [scanBracketTags] at h
  | cons c r ih =>
    simp only [scanBracketTags] at h
    cases hm : matchBracketTagAt (c :: r) with
    | some p =>
      obtain ⟨cap1, rest1⟩ := p
      rw [hm] at h
      simp only [List.mem_cons] at h
      rcases h with rfl | h
      · exact matchBracketTagAt_some hm
      · exact ih h
    | none =>
      rw [hm] at h
      exact ih h

theorem matchWordTagAt_some {s : Str} {cap : Str × Str × Str × Str}
    (h : matchWordTagAt s = some cap) :
    (parseTimeTag (wordTagToStr cap)).isSome = true := by
  simp only [matchWordTagAt, Option.bind_eq_some, Option.map_eq_some'] at h
  obtain ⟨r, -, p1, hp1, r2, -, p2, hp2, r4, -, p3, hp3, heq⟩ := h
  obtain ⟨d1, r1⟩ := p1
  obtain ⟨d2, r3⟩ := p2
  obtain ⟨fr, r5⟩ := p3
  subst heq
  have g1 := takeDigits2_some hp1
  have g2 := takeDigits2_some hp2
  have g3 := takeFrac_some hp3
  have hmn : d1 ≠ [] := by intro hnil; rw [hnil] at g1; simp at g1
  have hsn : d2 ≠ [] := by intro hnil; rw [hnil] at g2; simp at g2
  exact parseTimeTag_isSome_of_digits (by simp [wordTagToStr]) g1.1 hmn g2.1 hsn g3.1 g3.2

theorem scanWordTags_parseTimeTag {s : Str} {cap : Str × Str × Str × Str}
    (h : cap ∈ scanWordTags s) :
    (parseTimeTag (wordTagToStr cap)).isSome = true := by
  induction s with
  | nil => simp [scanWordTags] at h
  | cons c r ih =>
    simp only [scanWordTags] at h
    cases hm : matchWordTagAt (c :: r) with
    | some p =>
      rw [hm] at h
      simp only [List.mem_cons] at h
      rcases h with rfl | h
      · exact matchWordTagAt_some hm
      · exact ih h
    | none =>
      rw [hm] at h
      exact ih h

/-- C9: `parseTimeTag` succeeds on every string its call sites build.  The
three timestamp matchers (`LRC_LINE_REGEX` used by the fallback parser and
the translation-map builder, the leading-timestamp scan of `parseLrcLine`,
and the inline word-tag scan) capture only all-digit groups of the shape
`\d{2} : \d{2} . \d{2,3}`, on which `parseTimeTag`'s failure branch is
unreachable. -/
theorem C9_theorem :
    (∀ (s : Str) (cap : Str × Str × Str) (rest : Str),
      matchLrcLine s = some (cap, rest) → (parseTimeTag (tagToStr cap)).isSome = true) ∧
    (∀ (s : Str), ∀ cap ∈ (scanBracketTags s).1,
      (parseTimeTag (tagToStr cap)).isSome = true) ∧
    (∀ (s : Str), ∀ cap ∈ scanWordTags s,
      (parseTimeTag (wordTagToStr cap)).isSome = true) :=
  ⟨fun _ _ _ h => matchLrcLine_parseTimeTag h,
   fun _ _ h => scanBracketTags_parseTimeTag h,
   fun _ _ h => scanWordTags_parseTimeTag h⟩

/-- C9 witness: the matcher succeeds on a concrete line and `parseTimeTag`
therefore succeeds on the rebuilt capture. -/
theorem C9_witness :
    (parseTimeTag (tagToStr ("00".toList, "10".toList, "00".toList))).isSome = true :=
  C9_theorem.1 "[00:10.00]x".toList ("00".toList, "10".toList, "00".toList) "x".toList
    (by decide)

/-! ## Frame lemmas for the translation merger -/

/-- Pointwise relation between an output line of the merger and its input
line: every field except `translation` is preserved, and a changed
translation is a non-empty trimmed external text. -/
def mergeFrame (o l : LyricLine) : Prop :=
  o.time = l.time ∧ o.text = l.text ∧ o.words = l.words ∧
  o.isPreciseTiming = l.isPreciseTiming ∧ o.duration = l.duration ∧
  (o.translation = l.translation ∨ ∃ t, o.translation = some t ∧ trimStr t ≠ [])

theorem applyTranslation_frame (l : LyricLine) (ext : Option Str) :
    mergeFrame (applyTranslation l ext) l := by
  cases ext with
  | none => exact ⟨rfl, rfl, rfl, rfl, rfl, Or.inl rfl⟩
  | some e =>
    simp only [applyTranslation]
    by_cases he : (trimStr e).isEmpty
    · rw [if_pos he]
      exact ⟨rfl, rfl, rfl, rfl, rfl, Or.inl rfl⟩
    · rw [if_neg he]
      refine ⟨rfl, rfl, rfl, rfl, rfl, Or.inr ⟨trimStr e, rfl, ?_⟩⟩
      have hne : trimStr e ≠ [] := by simpa using he
      obtain ⟨c, hc, hw⟩ := exists_nonws_of_trimStr_ne_nil hne
      exact trimStr_ne_nil_of_mem hc hw

theorem mergeTransGo_frame (m : TMap) (lines : List LyricLine) :
    List.Forall₂ mergeFrame (mergeTransGo m lines) lines := by
  induction lines generalizing m with
  | nil => exact List.Forall₂.nil
  | cons l ls ih =>
    exact List.Forall₂.cons (applyTranslation_frame l _) (ih _)

theorem mergeTranslations_frame (lines : List LyricLine) (tc : Option Str) :
    List.Forall₂ mergeFrame (mergeTranslations lines tc) lines := by
  have hrefl : List.Forall₂ mergeFrame lines lines :=
    List.forall₂_same.2 fun l _ => ⟨rfl, rfl, rfl, rfl, rfl, Or.inl rfl⟩
  cases tc with
  | none => exact hrefl
  | some c =>
    simp only [mergeTranslations]
    by_cases h1 : (trimStr c).isEmpty
    · rw [if_pos h1]; exact hrefl
    · rw [if_neg h1]
      by_cases h2 : (buildTranslationMap (some c)).isEmpty
      · rw [if_pos h2]; exact hrefl
      · rw [if_neg h2]; exact mergeTransGo_frame _ _

/-- C10: `mergeTranslations` preserves everything except translations: the
output corresponds to the input pointwise (same length and order) with
`time`, `text`, `words`, `isPreciseTiming` and `duration` unchanged, and a
translation either left exactly as it was (in particular whenever no
non-empty external candidate is consumed for the line) or replaced by a
non-empty trimmed external text. -/
theorem C10_theorem (lines : List LyricLine) (translationContent : Option Str) :
    List.Forall₂ mergeFrame (mergeTranslations lines translationContent) lines :=
  mergeTranslations_frame lines translationContent

/-! ## Translation-map bookkeeping lemmas -/

theorem lookup_pair_cons (k a : ℤ) (b : List Str) (es : TMap) :
    ((k, b) :: es).lookup a = if a = k then some b else es.lookup a := by
  rw [List.lookup_cons]
  by_cases h : a = k
  · have hb : (a == k) = true := by simpa using h
    rw [hb, if_pos h]
  · have hb : (a == k) = false := by simpa using h
    rw [hb, if_neg h]

theorem lookup_cons_fst (kv : ℤ × List Str) (a : ℤ) (es : TMap) :
    (kv :: es).lookup a = if a = kv.1 then some kv.2 else es.lookup a := by
  obtain ⟨k, b⟩ := kv
  exact lookup_pair_cons k a b es

theorem lookup_tmapSet_self (m : TMap) (k : ℤ) (v : List Str) :
    (tmapSet m k v).lookup k = some v := by
  induction m with
  | nil => simp [tmapSet, lookup_pair_cons]
  | cons kv rest ih =>
    by_cases hk : kv.1 = k
    · simp [tmapSet, hk, lookup_pair_cons]
    · rw [tmapSet, if_neg hk, lookup_cons_fst, if_neg (Ne.symm hk)]
      exact ih

theorem lookup_tmapSet_ne (m : TMap) (k : ℤ) (v : List Str) (k' : ℤ) (h : k' ≠ k) :
    (tmapSet m k v).lookup k' = m.lookup k' := by
  induction m with
  | nil => simp [tmapSet, lookup_pair_cons, h]
  | cons kv rest ih =>
    by_cases hk : kv.1 = k
    · subst hk
      rw [tmapSet, if_pos rfl, lookup_pair_cons, if_neg h, lookup_cons_fst, if_neg h]
    · rw [tmapSet, if_neg hk, lookup_cons_fst, lookup_cons_fst, ih]

theorem lookup_tmapErase_ne (m : TMap) (k k' : ℤ) (h : k' ≠ k) :
    (tmapErase m k).lookup k' = m.lookup k' := by
  induction m with
  | nil => simp [tmapErase]
  | cons kv rest ih =>
    by_cases hk : kv.1 = k
    · subst hk
      rw [tmapErase, if_pos rfl, lookup_cons_fst, if_neg h]
    · rw [tmapErase, if_neg hk, lookup_cons_fst, lookup_cons_fst, ih]

theorem lookup_tmapErase_self (m : TMap) (k : ℤ) (hn : (tmapKeys m).Nodup) :
    (tmapErase m k).lookup k = none := by
  induction m with
  | nil => simp [tmapErase]
  | cons kv rest ih =>
    simp only [tmapKeys, List.map_cons, List.nodup_cons] at hn
    by_cases hk : kv.1 = k
    · subst hk
      rw [tmapErase, if_pos rfl]
      rw [List.lookup_eq_none_iff]
      intro p hp
      have : p.1 ≠ kv.1 := by
        intro he
        exact hn.1 (he ▸ List.mem_map_of_mem Prod.fst hp)
      simpa using Ne.symm this
    · rw [tmapErase, if_neg hk, lookup_cons_fst, if_neg (Ne.symm hk)]
      exact ih hn.2

theorem tmapKeys_tmapSet (m : TMap) (k : ℤ) (v : List Str)
    (h : (m.lookup k).isSome = true) :
    tmapKeys (tmapSet m k v) = tmapKeys m := by
  induction m with
  | nil => simp at h
  | cons kv rest ih =>
    by_cases hk : kv.1 = k
    · simp [tmapSet, hk, tmapKeys]
    · rw [lookup_cons_fst, if_neg (Ne.symm hk)] at h
      rw [tmapSet, if_neg hk]
      simp only [tmapKeys, List.map_cons] at ih ⊢
      rw [ih h]

theorem tmapKeys_tmapErase_sublist (m : TMap) (k : ℤ) :
    List.Sublist (tmapKeys (tmapErase m k)) (tmapKeys m) := by
  induction m with
  | nil => simp [tmapErase]
  | cons kv rest ih =>
    by_cases hk : kv.1 = k
    · simp only [tmapErase, if_pos hk, tmapKeys, List.map_cons]
      exact List.sublist_cons_self _ _
    · simp only [tmapErase, if_neg hk, tmapKeys, List.map_cons]
      exact List.Sublist.cons₂ _ ih

theorem tmapSize_tmapSet_pop (m : TMap) (k : ℤ) {v : Str} {rest : List Str}
    (h : m.lookup k = some (v :: rest)) :
    tmapSize (tmapSet m k rest) + 1 = tmapSize m := by
  induction m with
  | nil => simp at h
  | cons kv t ih =>
    obtain ⟨k1, b1⟩ := kv
    by_cases hk : k1 = k
    · subst hk
      rw [lookup_pair_cons, if_pos rfl] at h
      injection h with h'
      subst h'
      simp [tmapSet, tmapSize]
      omega
    · rw [lookup_pair_cons, if_neg (Ne.symm hk)] at h
      rw [tmapSet, if_neg hk]
      simp only [tmapSize, List.map_cons, List.sum_cons]
      have := ih h
      simp only [tmapSize] at this
      omega

theorem tmapSize_tmapErase_pop (m : TMap) (k : ℤ) {v : Str}
    (h : m.lookup k = some [v]) :
    tmapSize (tmapErase m k) + 1 = tmapSize m := by
  induction m with
  | nil => simp at h
  | cons kv t ih =>
    obtain ⟨k1, b1⟩ := kv
    by_cases hk : k1 = k
    · subst hk
      rw [lookup_pair_cons, if_pos rfl] at h
      injection h with h'
      subst h'
      simp [tmapErase, tmapSize]
      omega
    · rw [lookup_pair_cons, if_neg (Ne.symm hk)] at h
      rw [tmapErase, if_neg hk]
      simp only [tmapSize, List.map_cons, List.sum_cons]
      have := ih h
      simp only [tmapSize] at this
      omega

/-- The effect of one pop: the new bucket of the popped key, other buckets
untouched, one fewer stored text, keys still duplicate-free. -/
theorem pop_effect (m : TMap) (k : ℤ) {v : Str} {rest : List Str}
    (h : m.lookup k = some (v :: rest)) (hn : (tmapKeys m).Nodup) :
    (∀ k', (tmapBucket (if rest.isEmpty then tmapErase m k else tmapSet m k rest) k') <:+
      tmapBucket m k') ∧
    tmapSize (if rest.isEmpty then tmapErase m k else tmapSet m k rest) + 1 = tmapSize m ∧
    (tmapKeys (if rest.isEmpty then tmapErase m k else tmapSet m k rest)).Nodup := by
  cases rest with
  | nil =>
    simp only [List.isEmpty_nil, if_pos]
    refine ⟨?_, tmapSize_tmapErase_pop m k h, hn.sublist (tmapKeys_tmapErase_sublist m k)⟩
    intro k'
    by_cases hk : k' = k
    · subst hk
      simp [tmapBucket, lookup_tmapErase_self m k' hn]
    · simp [tmapBucket, lookup_tmapErase_ne m k k' hk]
  | cons w ws =>
    simp only [List.isEmpty_cons, Bool.false_eq_true, if_false]
    refine ⟨?_, tmapSize_tmapSet_pop m k h, ?_⟩
    · intro k'
      by_cases hk : k' = k
      · subst hk
        simp only [tmapBucket, lookup_tmapSet_self, h, Option.getD_some]
        exact List.suffix_cons v (w :: ws)
      · simp [tmapBucket, lookup_tmapSet_ne m k (w :: ws) k' hk]
    · rw [tmapKeys_tmapSet m k (w :: ws) (by simp [h])]
      exact hn

/-- `takeTranslationForLine` either leaves the map untouched and consumes
nothing, or pops the front of one non-empty bucket. -/
theorem takeTranslation_cases (m : TMap) (line : LyricLine) :
    takeTranslationForLine m line = (none, m) ∨
    ∃ k v rest, m.lookup k = some (v :: rest) ∧
      takeTranslationForLine m line =
        (some v, if rest.isEmpty then tmapErase m k else tmapSet m k rest) := by
  cases hlk : m.lookup (normalizeTimeKey line.time) with
  | some b =>
    cases b with
    | cons v rest =>
      right
      exact ⟨normalizeTimeKey line.time, v, rest, hlk,
        by simp only [takeTranslationForLine, hlk]⟩
    | nil =>
      cases hfb : fallbackKeyScan m (normalizeTimeKey line.time)
          (if line.isPreciseTiming then 3000 else 250) with
      | none => left; simp only [takeTranslationForLine, hlk, hfb]
      | some fk =>
        cases hlk2 : m.lookup fk.1 with
        | some b2 =>
          cases b2 with
          | cons v rest =>
            right
            exact ⟨fk.1, v, rest, hlk2,
              by simp only [takeTranslationForLine, hlk, hfb, hlk2]⟩
          | nil => left; simp only [takeTranslationForLine, hlk, hfb, hlk2]
        | none => left; simp only [takeTranslationForLine, hlk, hfb, hlk2]
  | none =>
    cases hfb : fallbackKeyScan m (normalizeTimeKey line.time)
        (if line.isPreciseTiming then 3000 else 250) with
    | none => left; simp only [takeTranslationForLine, hlk, hfb]
    | some fk =>
      cases hlk2 : m.lookup fk.1 with
      | some b2 =>
        cases b2 with
        | cons v rest =>
          right
          exact ⟨fk.1, v, rest, hlk2,
            by simp only [takeTranslationForLine, hlk, hfb, hlk2]⟩
        | nil => left; simp only [takeTranslationForLine, hlk, hfb, hlk2]
      | none => left; simp only [takeTranslationForLine, hlk, hfb, hlk2]

/-- One `takeTranslationForLine` step: buckets only lose a front element,
the total size drops by one exactly when a value is consumed, and keys stay
duplicate-free. -/
theorem takeTranslation_step (m : TMap) (line : LyricLine) (hn : (tmapKeys m).Nodup) :
    (∀ k, (tmapBucket (takeTranslationForLine m line).2 k) <:+ tmapBucket m k) ∧
    ((if (takeTranslationForLine m line).1.isSome then 1 else 0) +
      tmapSize (takeTranslationForLine m line).2 = tmapSize m) ∧
    (tmapKeys (takeTranslationForLine m line).2).Nodup := by
  rcases takeTranslation_cases m line with h | ⟨k, v, rest, hlk, h⟩
  · rw [h]
    exact ⟨fun k => List.suffix_rfl, by simp, hn⟩
  · rw [h]
    have he := pop_effect m k hlk hn
    exact ⟨he.1, by simpa [Nat.add_comm] using he.2.1, he.2.2⟩

theorem addEntry_nodup (m : TMap) (t : ℤ) (txt : Str) (hn : (tmapKeys m).Nodup) :
    (tmapKeys (addEntry m t txt)).Nodup := by
  unfold addEntry
  by_cases h0 : (trimStr txt).isEmpty || isMetadataLine (trimStr txt)
  · rw [if_pos h0]; exact hn
  · rw [if_neg h0]
    cases hlk : m.lookup (normalizeTimeKey t) with
    | some l =>
      simp only [hlk]
      rw [tmapKeys_tmapSet m _ _ (by simp [hlk])]
      exact hn
    | none =>
      simp only [hlk, tmapKeys, List.map_append, List.map_cons, List.map_nil]
      rw [List.nodup_append]
      refine ⟨hn, List.nodup_singleton _, ?_⟩
      intro a ha hb
      simp only [List.mem_singleton] at hb
      subst hb
      rw [List.lookup_eq_none_iff] at hlk
      obtain ⟨p, hp, hpa⟩ := List.mem_map.1 ha
      have := hlk p hp
      rw [← hpa] at this
      simp at this

theorem transParseLine_nodup (m : TMap) (rawLine : Str) (hn : (tmapKeys m).Nodup) :
    (tmapKeys (transParseLine m rawLine)).Nodup := by
  unfold transParseLine
  by_cases h0 : (trimStr rawLine).isEmpty
  · rw [if_pos h0]; exact hn
  · rw [if_neg h0]
    cases hj : (if (trimStr rawLine).head? = some lbrace ∧
        (trimStr rawLine).getLast? = some rbrace then parseJsonMeta (trimStr rawLine)
        else none) with
    | some p =>
      simp only
      exact addEntry_nodup _ _ _ hn
    | none =>
      simp only
      cases hy : matchYrcLine (trimStr rawLine) with
      | some y =>
        simp only
        exact addEntry_nodup _ _ _ hn
      | none =>
        simp only
        cases hl : matchLrcLine (trimStr rawLine) with
        | some c =>
          simp only
          exact addEntry_nodup _ _ _ hn
        | none => exact hn

theorem buildTranslationMap_nodup (tc : Option Str) :
    (tmapKeys (buildTranslationMap tc)).Nodup := by
  cases tc with
  | none => simp [buildTranslationMap, tmapKeys]
  | some c =>
    unfold buildTranslationMap
    have : ∀ (ls : List Str) (m : TMap), (tmapKeys m).Nodup →
        (tmapKeys (ls.foldl transParseLine m)).Nodup := by
      intro ls
      induction ls with
      | nil => intro m hm; exact hm
      | cons x xs ih =>
        intro m hm
        exact ih _ (transParseLine_nodup m x hm)
    exact this _ [] (by simp [tmapKeys])

theorem mergeTransSteps_conserv (lines : List LyricLine) :
    ∀ m : TMap, (tmapKeys m).Nodup →
    (∀ k, (tmapBucket (mergeTransSteps m lines).2 k) <:+ tmapBucket m k) ∧
    ((mergeTransSteps m lines).1.filterMap id).length +
      tmapSize (mergeTransSteps m lines).2 = tmapSize m := by
  induction lines with
  | nil =>
    intro m _
    exact ⟨fun k => List.suffix_rfl, by simp [mergeTransSteps]⟩
  | cons l ls ih =>
    intro m hn
    have step := takeTranslation_step m l hn
    have ihr := ih (takeTranslationForLine m l).2 step.2.2
    constructor
    · intro k
      exact List.IsSuffix.trans (by simpa [mergeTransSteps] using ihr.1 k) (step.1 k)
    · have hcount := ihr.2
      have hsz := step.2.1
      simp only [mergeTransSteps]
      cases hv : (takeTranslationForLine m l).1 with
      | none =>
        rw [hv] at hsz
        rw [List.filterMap_cons_none (by rfl)]
        simp only [Option.isSome_none] at hsz
        simp only [Bool.false_eq_true, if_false] at hsz
        omega
      | some v =>
        rw [hv] at hsz
        rw [List.filterMap_cons_some (by rfl)]
        simp at hsz
        simp only [List.length_cons]
        omega

theorem mergeTransGo_eq_zip (lines : List LyricLine) :
    ∀ m : TMap, mergeTransGo m lines =
      (lines.zip (mergeTransSteps m lines).1).map (fun p => applyTranslation p.1 p.2) := by
  induction lines with
  | nil => intro m; simp [mergeTransGo, mergeTransSteps]
  | cons l ls ih =>
    intro m
    simp only [mergeTransGo, mergeTransSteps, List.zip_cons_cons, List.map_cons]
    rw [ih]

/-- C5: across one `mergeTranslations` run every entry of the translation
multimap is consumed at most once.  With the initial map built by
`buildTranslationMap`: every final bucket is a suffix of its initial bucket
(entries are popped from the front and a drained bucket's binding is
deleted), the number of consumed entries plus the number of remaining
entries equals the initial entry count (so no entry is attached to two
different output lines), and the merger's real output is exactly the input
lines updated with those per-line consumed values. -/
theorem C5_theorem (translationContent : Option Str) (lines : List LyricLine) :
    (∀ k, (tmapBucket (mergeTransSteps (buildTranslationMap translationContent) lines).2 k) <:+
        tmapBucket (buildTranslationMap translationContent) k) ∧
    ((mergeTransSteps (buildTranslationMap translationContent) lines).1.filterMap id).length +
        tmapSize (mergeTransSteps (buildTranslationMap translationContent) lines).2 =
      tmapSize (buildTranslationMap translationContent) ∧
    mergeTransGo (buildTranslationMap translationContent) lines =
      (lines.zip (mergeTransSteps (buildTranslationMap translationContent) lines).1).map
        (fun p => applyTranslation p.1 p.2) := by
  have h := mergeTransSteps_conserv lines (buildTranslationMap translationContent)
    (buildTranslationMap_nodup translationContent)
  exact ⟨h.1, h.2, mergeTransGo_eq_zip lines _⟩

/-! ## Equivalence of the fallback scan with filter-and-argmin (C4) -/

theorem scanStep_eq (key tol : ℤ) (kv : ℤ × List Str) (a : Option (ℤ × List Str)) :
    (if kv.2.isEmpty then a.map (fun kv => (kv.1, |kv.1 - key|)) else
      let diff := |kv.1 - key|
      match a.map (fun kv => (kv.1, |kv.1 - key|)) with
      | none => if diff ≤ tol then some (kv.1, diff) else none
      | some b => if diff ≤ tol ∧ diff < b.2 then some (kv.1, diff) else some b) =
    (if (!kv.2.isEmpty && decide (|kv.1 - key| ≤ tol)) = true
     then List.argAux (fun b c => |b.1 - key| < |c.1 - key|) a kv else a).map
       (fun kv => (kv.1, |kv.1 - key|)) := by
  cases a with
  | none =>
    by_cases hemp : kv.2.isEmpty
    · simp [hemp]
    · by_cases htol : |kv.1 - key| ≤ tol
      · simp [hemp, htol, List.argAux]
      · simp [hemp, htol]
  | some b =>
    by_cases hemp : kv.2.isEmpty
    · simp [hemp]
    · by_cases htol : |kv.1 - key| ≤ tol
      · by_cases hlt : |kv.1 - key| < |b.1 - key|
        · simp [hemp, htol, hlt, List.argAux]
        · simp [hemp, htol, hlt, List.argAux]
      · simp [hemp, htol]

theorem fallbackScan_foldl_eq (key tol : ℤ) :
    ∀ (m : TMap) (a : Option (ℤ × List Str)),
    m.foldl (fun best kv =>
      if kv.2.isEmpty then best else
      let diff := |kv.1 - key|
      match best with
      | none => if diff ≤ tol then some (kv.1, diff) else none
      | some b => if diff ≤ tol ∧ diff < b.2 then some (kv.1, diff) else some b)
      (a.map (fun kv => (kv.1, |kv.1 - key|))) =
    ((m.filter (fun kv => !kv.2.isEmpty && decide (|kv.1 - key| ≤ tol))).foldl
      (List.argAux (fun b c => |b.1 - key| < |c.1 - key|)) a).map
        (fun kv => (kv.1, |kv.1 - key|)) := by
  intro m
  induction m with
  | nil => intro a; simp
  | cons kv t ih =>
    intro a
    rw [List.foldl_cons, scanStep_eq key tol kv a]
    by_cases hpred : (!kv.2.isEmpty && decide (|kv.1 - key| ≤ tol)) = true
    · rw [if_pos hpred]
      rw [ih (List.argAux (fun b c => |b.1 - key| < |c.1 - key|) a kv)]
      have hf : List.filter (fun kv => !kv.2.isEmpty && decide (|kv.1 - key| ≤ tol)) (kv :: t) =
          kv :: List.filter (fun kv => !kv.2.isEmpty && decide (|kv.1 - key| ≤ tol)) t := by
        simp only [List.filter_cons, hpred, if_true]
      rw [hf, List.foldl_cons]
    · rw [if_neg hpred]
      rw [ih a]
      have hf : List.filter (fun kv => !kv.2.isEmpty && decide (|kv.1 - key| ≤ tol)) (kv :: t) =
          List.filter (fun kv => !kv.2.isEmpty && decide (|kv.1 - key| ≤ tol)) t := by
        rw [List.filter_cons, if_neg hpred]
      rw [hf]

theorem fallbackKeyScan_eq_argmin (m : TMap) (key tol : ℤ) :
    fallbackKeyScan m key tol =
      ((m.filter (fun kv => !kv.2.isEmpty && decide (|kv.1 - key| ≤ tol))).argmin
        (fun kv => |kv.1 - key|)).map (fun kv => (kv.1, |kv.1 - key|)) := by
  have h := fallbackScan_foldl_eq key tol m none
  simpa [fallbackKeyScan, List.argmin] using h

/-- C4 (amended): `takeTranslationForLine` equals its declarative
reformulation — exact quantized-key FIFO pop first; otherwise pop FIFO from
the candidate bucket (non-empty, within the precision-dependent tolerance
measured between quantized keys) at minimal key distance, the
earliest-inserted bucket winning ties; no candidate leaves the line's map
untouched and attaches nothing. -/
theorem C4_theorem (m : TMap) (line : LyricLine) :
    takeTranslationForLine m line = specTakeTranslation m line := by
  cases hlk : m.lookup (normalizeTimeKey line.time) with
  | some b =>
    cases b with
    | cons v rest =>
      simp only [takeTranslationForLine, specTakeTranslation, hlk]
    | nil =>
      simp only [takeTranslationForLine, specTakeTranslation, hlk]
      rw [fallbackKeyScan_eq_argmin]
      cases ha : (m.filter (fun kv => !kv.2.isEmpty &&
          decide (|kv.1 - normalizeTimeKey line.time| ≤
            if line.isPreciseTiming then 3000 else 250))).argmin
          (fun kv => |kv.1 - normalizeTimeKey line.time|) with
      | none => simp
      | some kv => simp
  | none =>
    simp only [takeTranslationForLine, specTakeTranslation, hlk]
    rw [fallbackKeyScan_eq_argmin]
    cases ha : (m.filter (fun kv => !kv.2.isEmpty &&
        decide (|kv.1 - normalizeTimeKey line.time| ≤
          if line.isPreciseTiming then 3000 else 250))).argmin
        (fun kv => |kv.1 - normalizeTimeKey line.time|) with
    | none => simp
    | some kv => simp

/-! ## Generic stable-sort lemmas with local totality/transitivity -/

theorem orderedInsert_pairwise {α : Type} (R : α → α → Prop) [DecidableRel R] (S : α → Prop)
    (htot : ∀ a b, S a → S b → R a b ∨ R b a)
    (htrans : ∀ a b c, S a → S b → S c → R a b → R b c → R a c) :
    ∀ (a : α) (l : List α), S a → (∀ x ∈ l, S x) → l.Pairwise R →
      (List.orderedInsert R a l).Pairwise R := by
  intro a l
  induction l with
  | nil => intro _ _ _; simp
  | cons b t ih =>
    intro hSa hSl hp
    by_cases hab : R a b
    · rw [List.orderedInsert, if_pos hab, List.pairwise_cons]
      constructor
      · intro x hx
        rcases List.mem_cons.1 hx with rfl | hxt
        · exact hab
        · exact htrans a b x hSa (hSl b (by simp)) (hSl x (by simp [hxt])) hab
            ((List.pairwise_cons.1 hp).1 x hxt)
      · exact hp
    · rw [List.orderedInsert, if_neg hab, List.pairwise_cons]
      constructor
      · intro x hx
        rcases (List.mem_orderedInsert R).1 hx with rfl | hxt
        · exact (htot x b hSa (hSl b (by simp))).resolve_left hab
        · exact (List.pairwise_cons.1 hp).1 x hxt
      · exact ih hSa (fun x hx => hSl x (by simp [hx])) (List.pairwise_cons.1 hp).2

theorem insertionSort_pairwise {α : Type} (R : α → α → Prop) [DecidableRel R] (S : α → Prop)
    (htot : ∀ a b, S a → S b → R a b ∨ R b a)
    (htrans : ∀ a b c, S a → S b → S c → R a b → R b c → R a c) :
    ∀ l, (∀ x ∈ l, S x) → (List.insertionSort R l).Pairwise R := by
  intro l
  induction l with
  | nil => intro _; simp
  | cons a t ih =>
    intro hS
    rw [List.insertionSort]
    refine orderedInsert_pairwise R S htot htrans a _ (hS a (by simp)) ?_ (ih ?_)
    · intro x hx
      exact hS x (by simp [(List.mem_insertionSort (r := R)).1 hx])
    · intro x hx
      exact hS x (by simp [hx])

/-! ## The in-group priority order -/

/-- Plain description of `relGroup`: higher `tagCount` first, then lower
`originalIndex`. -/
theorem relGroup_iff (a b : ParsedLineData) :
    relGroup a b ↔
      b.tagCount < a.tagCount ∨
        (a.tagCount = b.tagCount ∧ a.originalIndex ≤ b.originalIndex) := by
  unfold relGroup cmpGroup
  by_cases h : a.tagCount = b.tagCount
  · rw [if_neg (by simpa using h)]
    omega
  · rw [if_pos h]
    omega

theorem relGroup_total (a b : ParsedLineData) : relGroup a b ∨ relGroup b a := by
  rw [relGroup_iff, relGroup_iff]
  omega

theorem relGroup_trans (a b c : ParsedLineData) (h1 : relGroup a b) (h2 : relGroup b c) :
    relGroup a c := by
  rw [relGroup_iff] at h1 h2 ⊢
  omega

theorem sortGroup_pairwise (grp : List ParsedLineData) :
    (List.insertionSort relGroup grp).Pairwise relGroup :=
  insertionSort_pairwise relGroup (fun _ => True) (fun a b _ _ => relGroup_total a b)
    (fun a b c _ _ _ => relGroup_trans a b c) grp (fun _ _ => trivial)

theorem relGroup_not_betterCand {a b : ParsedLineData} (h : relGroup a b) :
    betterCand b a = false := by
  rw [relGroup_iff] at h
  unfold betterCand
  rcases h with h | ⟨h1, h2⟩
  · simp only [Bool.or_eq_false_iff, Bool.and_eq_false_iff]
    constructor
    · simpa using by omega
    · left; simpa using by omega
  · simp only [Bool.or_eq_false_iff, Bool.and_eq_false_iff]
    constructor
    · simpa using by omega
    · right; simpa using by omega

/-! ## `findIdx?` / `find?` / `bestOf` bridges -/

theorem findIdx?_some_get {α : Type} {p : α → Bool} :
    ∀ {s : List α} {i : ℕ}, s.findIdx? p = some i → s[i]? = s.find? p := by
  intro s
  induction s with
  | nil => intro i h; simp at h
  | cons x xs ih =>
    intro i h
    rw [List.findIdx?_cons] at h
    by_cases hp : p x
    · rw [if_pos hp] at h
      injection h with h'
      subst h'
      simp [List.find?_cons_of_pos _ hp]
    · rw [if_neg hp, List.findIdx?_start_succ] at h
      simp only [Option.map_eq_some'] at h
      obtain ⟨j, hj, rfl⟩ := h
      rw [List.find?_cons_of_neg _ hp]
      simpa using ih (by simpa using hj)

theorem findIdx?_first {α : Type} {p : α → Bool} :
    ∀ {s : List α} {i : ℕ}, s.findIdx? p = some i →
      ∀ j y, j < i → s[j]? = some y → p y = false := by
  intro s
  induction s with
  | nil => intro i h; simp at h
  | cons x xs ih =>
    intro i h j y hj hy
    rw [List.findIdx?_cons] at h
    by_cases hp : p x
    · rw [if_pos hp] at h
      injection h with h'
      omega
    · rw [if_neg hp, List.findIdx?_start_succ] at h
      simp only [Option.map_eq_some'] at h
      obtain ⟨k, hk, rfl⟩ := h
      cases j with
      | zero =>
        simp only [List.getElem?_cons_zero] at hy
        injection hy with hy'
        subst hy'
        simpa using hp
      | succ j' =>
        simp only [List.getElem?_cons_succ] at hy
        exact ih (by simpa using hk) j' y (by omega) hy

theorem bestOf_go_stays (b : ParsedLineData) :
    ∀ l : List ParsedLineData, (∀ e ∈ l, betterCand e b = false) →
      l.foldl (fun best e =>
        match best with
        | none => some e
        | some c => if betterCand e c then some e else some c) (some b) = some b := by
  intro l
  induction l with
  | nil => intro _; rfl
  | cons e t ih =>
    intro h
    simp only [List.foldl_cons]
    rw [show (if betterCand e b then some e else some b) = some b from
      by rw [h e (by simp), if_neg (by simp)]]
    exact ih (fun x hx => h x (by simp [hx]))

theorem bestOf_cons (a : ParsedLineData) (l : List ParsedLineData) :
    bestOf (a :: l) = l.foldl (fun best e =>
      match best with
      | none => some e
      | some c => if betterCand e c then some e else some c) (some a) := rfl

theorem find?_eq_bestOf_filter (p : ParsedLineData → Bool) :
    ∀ s : List ParsedLineData, s.Pairwise relGroup → s.find? p = bestOf (s.filter p) := by
  intro s
  induction s with
  | nil => intro _; rfl
  | cons a t ih =>
    intro hp
    obtain ⟨ha, ht⟩ := List.pairwise_cons.1 hp
    by_cases hpa : p a
    · rw [List.find?_cons_of_pos _ hpa, List.filter_cons_of_pos hpa, bestOf_cons]
      rw [bestOf_go_stays a _ ?_]
      intro e he
      exact relGroup_not_betterCand (ha e (List.mem_of_mem_filter he))
    · rw [List.find?_cons_of_neg _ hpa, List.filter_cons_of_neg (by simpa using hpa)]
      exact ih ht

theorem bestOf_eq_none_iff (l : List ParsedLineData) : bestOf l = none ↔ l = [] := by
  cases l with
  | nil => simp [bestOf]
  | cons a t =>
    rw [bestOf_cons]
    have haux : ∀ (acc : ParsedLineData) (l' : List ParsedLineData),
        l'.foldl (fun best e =>
          match best with
          | none => some e
          | some c => if betterCand e c then some e else some c) (some acc) ≠ none := by
      intro acc l'
      induction l' generalizing acc with
      | nil => simp
      | cons e t' ih =>
        simp only [List.foldl_cons]
        by_cases hb : betterCand e acc
        · rw [if_pos hb]; exact ih e
        · rw [if_neg hb]; exact ih acc
    constructor
    · intro h
      exact absurd h (haux a t)
    · intro h
      simp at h

theorem bestOf_pairwise_head (s : List ParsedLineData) (hp : s.Pairwise relGroup) :
    bestOf s = s.head? := by
  cases s with
  | nil => rfl
  | cons a t =>
    obtain ⟨ha, _⟩ := List.pairwise_cons.1 hp
    rw [bestOf_cons, List.head?_cons]
    exact bestOf_go_stays a t (fun e he => relGroup_not_betterCand (ha e he))

theorem bestOf_filter_none_of_findIdx?_none {p : ParsedLineData → Bool}
    {s : List ParsedLineData} (h : s.findIdx? p = none) : bestOf (s.filter p) = none := by
  rw [bestOf_eq_none_iff, List.filter_eq_nil_iff]
  intro a ha hp
  rw [List.findIdx?_eq_none_iff] at h
  rw [h a ha] at hp
  exact Bool.noConfusion hp

theorem bestOf_filter_some_of_findIdx?_some {p : ParsedLineData → Bool}
    {s : List ParsedLineData} {i : ℕ} (hs : s.Pairwise relGroup)
    (h : s.findIdx? p = some i) : s[i]? = bestOf (s.filter p) := by
  rw [findIdx?_some_get h]
  exact find?_eq_bestOf_filter p s hs

/-- Main selection of the source (`find ?? find ?? group[0]` on the sorted
group) coincides with the claim's highest-priority choice. -/
theorem mainIndex_get (s : List ParsedLineData) (hs : s.Pairwise relGroup) :
    s[mainIndex s]? = chooseMain s := by
  unfold mainIndex chooseMain
  cases h1 : s.findIdx? (fun e => !e.isMetadata && hasMeaningfulContent e) with
  | some i =>
    rw [← bestOf_filter_some_of_findIdx?_some hs h1]
    cases hg : s[i]? with
    | some m => rfl
    | none =>
      rw [bestOf_filter_some_of_findIdx?_some hs h1] at hg
      rw [bestOf_eq_none_iff, List.filter_eq_nil_iff] at hg
      rw [List.findIdx?_eq_none_iff.2 (fun x hx => by
        by_cases hpx : (!x.isMetadata && hasMeaningfulContent x) = true
        · exact absurd hpx (hg x hx)
        · simpa using hpx)] at h1
      exact Option.noConfusion h1
  | none =>
    rw [bestOf_filter_none_of_findIdx?_none h1]
    cases h2 : s.findIdx? hasMeaningfulContent with
    | some i =>
      rw [← bestOf_filter_some_of_findIdx?_some hs h2]
      cases hg : s[i]? with
      | some m => rfl
      | none =>
        rw [bestOf_filter_some_of_findIdx?_some hs h2] at hg
        rw [bestOf_eq_none_iff, List.filter_eq_nil_iff] at hg
        rw [List.findIdx?_eq_none_iff.2 (fun x hx => by
          by_cases hpx : hasMeaningfulContent x = true
          · exact absurd hpx (hg x hx)
          · simpa using hpx)] at h2
        exact Option.noConfusion h2
    | none =>
      rw [bestOf_filter_none_of_findIdx?_none h2]
      rw [bestOf_pairwise_head s hs, ← List.head?_eq_getElem?]

theorem eraseIdx_eq_erase {α : Type} [DecidableEq α] :
    ∀ (s : List α) (i : ℕ) (x : α), s[i]? = some x →
      (∀ j y, j < i → s[j]? = some y → y ≠ x) → s.eraseIdx i = s.erase x := by
  intro s
  induction s with
  | nil => intro i x h _; simp at h
  | cons a t ih =>
    intro i x h hfirst
    cases i with
    | zero =>
      simp only [List.getElem?_cons_zero] at h
      injection h with h'
      subst h'
      simp
    | succ i' =>
      simp only [List.getElem?_cons_succ] at h
      have hax : a ≠ x := hfirst 0 a (by omega) (by simp)
      rw [List.eraseIdx_cons_succ, List.erase_cons_tail (by simpa using hax)]
      rw [ih i' x h (fun j y hj hy => hfirst (j + 1) y (by omega) (by simpa using hy))]

/-- The entry at `mainIndex` is the first occurrence of its own value. -/
theorem mainIndex_first (s : List ParsedLineData) {main : ParsedLineData}
    (hm : s[mainIndex s]? = some main) :
    ∀ j y, j < mainIndex s → s[j]? = some y → y ≠ main := by
  intro j y hj hy
  unfold mainIndex at hm hj
  cases h1 : s.findIdx? (fun e => !e.isMetadata && hasMeaningfulContent e) with
  | some i =>
    rw [h1] at hm hj
    have hpy := findIdx?_first h1 j y hj hy
    have hpm : (!main.isMetadata && hasMeaningfulContent main) = true := by
      have h3 := findIdx?_some_get h1
      rw [hm] at h3
      have h4 : List.find? (fun e => !e.isMetadata && hasMeaningfulContent e) s = some main :=
        h3.symm
      have h5 := List.find?_some h4
      simpa using h5
    intro he
    rw [he, hpm] at hpy
    exact Bool.noConfusion hpy
  | none =>
    rw [h1] at hm hj
    cases h2 : s.findIdx? hasMeaningfulContent with
    | some i =>
      rw [h2] at hm hj
      have hpy := findIdx?_first h2 j y hj hy
      have hpm : hasMeaningfulContent main = true := by
        have h3 := findIdx?_some_get h2
        rw [hm] at h3
        have h4 : List.find? hasMeaningfulContent s = some main := h3.symm
        have h5 := List.find?_some h4
        simpa using h5
      intro he
      rw [he, hpm] at hpy
      exact Bool.noConfusion hpy
    | none =>
      rw [h2] at hj
      have hj0 : j < 0 := hj
      omega

/-- The two translation-part filters of the group merger agree: the inner
`!normalizedMain || ...` guard is redundant given the `t ≠ []` conjunct. -/
theorem partsFilter_congr (mainText : Str) (l : List Str) :
    l.filter (fun t => !t.isEmpty &&
        ((toLowerStr mainText).isEmpty || toLowerStr t != toLowerStr mainText)) =
      l.filter (fun t => !t.isEmpty && toLowerStr t != toLowerStr mainText) := by
  apply List.filter_congr
  intro t _
  by_cases hmt : (toLowerStr mainText).isEmpty
  · have hmn : mainText = [] := by simpa [toLowerStr] using hmt
    subst hmn
    cases t with
    | nil => simp
    | cons c r => simp [toLowerStr]
  · simp [hmt]

/-- C6 core: group emission of the source equals the claim-side emission. -/
theorem emitGroup_eq_spec (grp : List ParsedLineData) : emitGroup grp = specEmitGroup grp := by
  have hs := sortGroup_pairwise grp
  simp only [emitGroup, specEmitGroup]
  rw [mainIndex_get _ hs]
  cases hc : chooseMain (List.insertionSort relGroup grp) with
  | none => rfl
  | some main =>
    simp only
    by_cases hm : main.isMetadata
    · rw [if_pos hm, if_pos hm]
    · rw [if_neg hm, if_neg hm]
      have hmm : (List.insertionSort relGroup grp)[mainIndex (List.insertionSort relGroup grp)]? =
          some main := by rw [mainIndex_get _ hs, hc]
      rw [eraseIdx_eq_erase _ _ _ hmm (mainIndex_first _ hmm)]
      rw [partsFilter_congr]

/-- C6: `groupAndMergeLines` implements exactly the claimed grouping: groups
are cut by the strict 0.1 s forward-scanning window; the main entry is the
highest-`tagCount` non-metadata meaningful entry (else any meaningful entry,
else the highest-priority entry), ties broken by `originalIndex`; a metadata
main discards the whole group; otherwise the other non-metadata meaningful
members' display texts, minus those case-insensitively equal to the main
text, joined by newline, become the translation of one emitted line with
`isPreciseTiming = false`. -/
theorem C6_theorem (entries : List ParsedLineData) :
    groupAndMergeLines entries = specGroupAndMergeLines entries := by
  unfold groupAndMergeLines specGroupAndMergeLines
  rw [show emitGroup = specEmitGroup from funext emitGroup_eq_spec]

/-! ## C7: the word-synced merger -/

/-- Any index produced by the nearest-bucket fold is the index of some
enumerated element (or was already in the accumulator). -/
theorem nearest_foldl_mem (t : ℤ) :
    ∀ (l : List (ℕ × ParsedLineData)) (acc : Option (ℕ × ℤ)) (q : ℕ × ℤ),
      l.foldl (fun best p =>
        let diff := |p.2.time - t|
        match best with
        | none => some (p.1, diff)
        | some b => if diff < b.2 then some (p.1, diff) else some b) acc = some q →
      acc = some q ∨ ∃ x ∈ l, q.1 = x.1 := by
  intro l
  induction l with
  | nil => intro acc q h; exact Or.inl h
  | cons p rest ih =>
    intro acc q h
    rw [List.foldl_cons] at h
    rcases ih _ q h with hstep | ⟨x, hx, hq⟩
    · cases acc with
      | none =>
        simp only at hstep
        injection hstep with h'
        refine Or.inr ⟨p, by simp, ?_⟩
        rw [← h']
      | some b =>
        simp only at hstep
        by_cases hlt : |p.2.time - t| < b.2
        · rw [if_pos hlt] at hstep
          injection hstep with h'
          refine Or.inr ⟨p, by simp, ?_⟩
          rw [← h']
        · rw [if_neg hlt] at hstep
          exact Or.inl hstep
    · exact Or.inr ⟨x, by simp [hx], hq⟩

/-- The bucket index chosen by `nearestBucketIdx` is in range. -/
theorem nearestBucketIdx_lt (mains : List ParsedLineData) (t : ℤ) (q : ℕ × ℤ)
    (h : nearestBucketIdx mains t = some q) : q.1 < mains.length := by
  rcases nearest_foldl_mem t mains.enum none q h with h' | ⟨x, hx, hq⟩
  · exact Option.noConfusion h'
  · obtain ⟨j, hj⟩ := List.mem_iff_getElem?.1 hx
    rw [List.enum, List.getElem?_enumFrom] at hj
    simp only [Option.map_eq_some'] at hj
    obtain ⟨a, ha, he⟩ := hj
    have hjlt : j < mains.length := by
      by_contra hge
      rw [List.getElem?_eq_none (by omega)] at ha
      exact Option.noConfusion ha
    rw [hq, ← he]
    simpa using hjlt

/-- A skipped secondary entry (metadata or unassigned) changes no bucket. -/
theorem bucketTexts_cons_skip (mains : List ParsedLineData) (os : List ParsedLineData)
    (o : ParsedLineData) (h : o.isMetadata = true ∨ assignedIdx mains o = none) (j : ℕ) :
    bucketTexts mains (o :: os) j = bucketTexts mains os j := by
  unfold bucketTexts
  rcases h with h | h
  · rw [List.filter_cons_of_neg (by simp [h])]
  · by_cases hm : o.isMetadata
    · rw [List.filter_cons_of_neg (by simp [hm])]
    · rw [List.filter_cons_of_pos (by simp [hm]), List.filter_cons_of_neg (by simp [h])]

/-- An assigned secondary entry prepends its display text exactly to its
assigned bucket. -/
theorem bucketTexts_cons_assigned (mains : List ParsedLineData) (os : List ParsedLineData)
    (o : ParsedLineData) (i : ℕ) (hm : o.isMetadata = false)
    (ha : assignedIdx mains o = some i) (j : ℕ) :
    bucketTexts mains (o :: os) j =
      if j = i then getEntryDisplayText o :: bucketTexts mains os j
      else bucketTexts mains os j := by
  unfold bucketTexts
  rw [List.filter_cons_of_pos (by simp [hm])]
  by_cases hj : j = i
  · subst hj
    rw [List.filter_cons_of_pos (by simp [ha]), List.map_cons, if_pos rfl]
  · rw [List.filter_cons_of_neg (by simp [ha, Ne.symm hj]), if_neg hj]

/-- Appending to one bucket, viewed through the enumerated map. -/
theorem enum_map_set (bts : List (List Str)) (i : ℕ) (hi : i < bts.length) (t : Str)
    (g : ℕ → List Str) :
    (bts.set i (bts.getD i [] ++ [t])).enum.map (fun p => p.2 ++ g p.1) =
    bts.enum.map (fun p => p.2 ++ (if p.1 = i then t :: g p.1 else g p.1)) := by
  apply List.ext_getElem?
  intro j
  simp only [List.getElem?_map, List.enum, List.getElem?_enumFrom, List.getElem?_set,
    List.getD_eq_getElem?_getD]
  by_cases hij : i = j
  · subst hij
    rw [if_pos rfl, if_pos hi]
    rw [List.getElem?_eq_getElem hi]
    simp [List.append_assoc]
  · rw [if_neg hij]
    cases hl : bts[j]? with
    | none => simp
    | some b =>
      simp only [Option.map_some', Option.map_map]
      have : ¬ (0 + j = i) := by omega
      have hji : ¬ j = i := fun h => hij h.symm
      simp [this, hji]

/-- The assignment loop computed from scratch: buckets are the claim-side
filters appended to the running state, orphans accumulate the skipped
non-metadata entries in order. -/
theorem assignLoop_spec (mains : List ParsedLineData) :
    ∀ (os : List ParsedLineData) (bts : List (List Str)) (orphans : List ParsedLineData),
      bts.length = mains.length →
      assignLoop mains bts orphans os =
        (bts.enum.map (fun p => p.2 ++ bucketTexts mains os p.1),
         orphans ++ os.filter (fun o => !o.isMetadata && (assignedIdx mains o).isNone)) := by
  intro os
  induction os with
  | nil =>
    intro bts orphans _
    simp [assignLoop, bucketTexts, List.enum_map_snd]
  | cons o os ih =>
    intro bts orphans hlen
    by_cases hm : o.isMetadata
    · have hskip : ∀ j, bucketTexts mains (o :: os) j = bucketTexts mains os j :=
        bucketTexts_cons_skip mains os o (Or.inl hm)
      simp only [assignLoop, hm, if_true, hskip]
      rw [ih bts orphans hlen, List.filter_cons_of_neg (by simp [hm])]
    · cases hnb : nearestBucketIdx mains o.time with
      | none =>
        have hai : assignedIdx mains o = none := by simp [assignedIdx, hnb]
        have hskip : ∀ j, bucketTexts mains (o :: os) j = bucketTexts mains os j :=
          bucketTexts_cons_skip mains os o (Or.inr hai)
        simp only [assignLoop, hm, Bool.false_eq_true, if_false, hnb, hskip]
        rw [ih bts (orphans ++ [o]) hlen,
          List.filter_cons_of_pos (by simp [hm, hai]), List.append_assoc,
          List.singleton_append]
      | some q =>
        obtain ⟨i, d⟩ := q
        by_cases hd : d < 3000
        · by_cases ht : (getEntryDisplayText o).isEmpty
          · have hai : assignedIdx mains o = none := by
              have : getEntryDisplayText o = [] := by simpa using ht
              simp [assignedIdx, hnb, this]
            have hskip : ∀ j, bucketTexts mains (o :: os) j = bucketTexts mains os j :=
              bucketTexts_cons_skip mains os o (Or.inr hai)
            simp only [assignLoop, hm, if_false, hnb, hd, if_true, ht, Bool.not_true,
              Bool.false_eq_true, hskip]
            rw [ih bts (orphans ++ [o]) hlen,
              List.filter_cons_of_pos (by simp [hm, hai]), List.append_assoc,
              List.singleton_append]
          · have hne : getEntryDisplayText o ≠ [] := by simpa using ht
            have hai : assignedIdx mains o = some i := by
              simp [assignedIdx, hnb, hd, hne]
            have hilt : i < bts.length := by
              rw [hlen]
              exact nearestBucketIdx_lt mains o.time (i, d) hnb
            simp only [assignLoop, hm, Bool.false_eq_true, if_false, hnb, hd, if_true, ht, Bool.not_false]
            rw [ih (bts.set i (bts.getD i [] ++ [getEntryDisplayText o])) orphans
              (by rw [List.length_set, hlen]),
              List.filter_cons_of_neg (by simp [hai]),
              enum_map_set bts i hilt (getEntryDisplayText o) (bucketTexts mains os)]
            have hb : ∀ j, bucketTexts mains (o :: os) j =
                if j = i then getEntryDisplayText o :: bucketTexts mains os j
                else bucketTexts mains os j :=
              bucketTexts_cons_assigned mains os o i (by simpa using hm) hai
            simp only [hb]
        · have hai : assignedIdx mains o = none := by
            simp [assignedIdx, hnb, hd]
          have hskip : ∀ j, bucketTexts mains (o :: os) j = bucketTexts mains os j :=
            bucketTexts_cons_skip mains os o (Or.inr hai)
          simp only [assignLoop, hm, Bool.false_eq_true, if_false, hnb, hd, hskip]
          rw [ih bts (orphans ++ [o]) hlen,
            List.filter_cons_of_pos (by simp [hm, hai]), List.append_assoc,
            List.singleton_append]

/-- Zipping the word-synced lines with their computed buckets equals an
enumerated map over the lines. -/
theorem zip_buckets_from (g : ℕ → List Str) :
    ∀ (l : List ParsedLineData) (n : ℕ),
    (l.zip (((l.map (fun _ => ([] : List Str))).enumFrom n).map (fun p => p.2 ++ g p.1))).map
      (fun p => mkBucketLine p.1 p.2) =
    (l.enumFrom n).map (fun p => mkBucketLine p.2 (g p.1)) := by
  intro l
  induction l with
  | nil => intro n; rfl
  | cons a l ih =>
    intro n
    simp only [List.map_cons, List.enumFrom_cons, List.zip_cons_cons, List.nil_append]
    rw [ih (n + 1)]

/-- C7 core: the word-synced merger equals its declarative reformulation. -/
theorem mergeYrc_eq_spec (entries : List ParsedLineData) :
    mergeYrcWithTranslations entries = specMergeYrc entries := by
  simp only [mergeYrcWithTranslations, specMergeYrc]
  rw [assignLoop_spec _ _ _ _ (by simp)]
  simp only [List.nil_append, List.enum]
  rw [zip_buckets_from]

/-- C7: amended bucket-assignment characterization of
`mergeYrcWithTranslations`. -/
theorem C7_theorem (entries : List ParsedLineData) :
    mergeYrcWithTranslations entries = specMergeYrc entries :=
  mergeYrc_eq_spec entries

/-! ## C1: translation well-formedness -/

theorem forall2_exists_right {α β : Type} {R : α → β → Prop} :
    ∀ {as : List α} {bs : List β}, List.Forall₂ R as bs → ∀ a ∈ as, ∃ b ∈ bs, R a b := by
  intro as bs h
  induction h with
  | nil => intro a ha; simp at ha
  | cons hr _ ih =>
    intro a ha
    rcases List.mem_cons.1 ha with rfl | ha'
    · exact ⟨_, by simp, hr⟩
    · obtain ⟨b, hb, hrb⟩ := ih a ha'
      exact ⟨b, by simp [hb], hrb⟩

/-- An already-trimmed non-empty string stays non-empty under trimming. -/
theorem trimStr_trim_ne_nil {x : Str} (h : trimStr x ≠ []) : trimStr (trimStr x) ≠ [] := by
  obtain ⟨c, hc, hw⟩ := exists_nonws_of_trimStr_ne_nil h
  exact trimStr_ne_nil_of_mem hc hw

/-- Every line the group emitter produces carries a well-formed translation. -/
theorem emitGroup_transOk (grp : List ParsedLineData) : ∀ l ∈ emitGroup grp, transOk l := by
  intro l hl
  simp only [emitGroup] at hl
  cases hmi : (List.insertionSort relGroup grp)[mainIndex (List.insertionSort relGroup grp)]? with
  | none => rw [hmi] at hl; simp at hl
  | some main =>
    rw [hmi] at hl
    by_cases hm : main.isMetadata
    · simp [hm] at hl
    · simp only [hm, Bool.false_eq_true, if_false, List.mem_singleton] at hl
      subst hl
      intro t ht
      simp only at ht
      by_cases hp : (((((List.insertionSort relGroup grp).eraseIdx
          (mainIndex (List.insertionSort relGroup grp))).filter
          (fun e => !e.isMetadata && hasMeaningfulContent e)).map getEntryDisplayText).filter
          (fun t => !t.isEmpty &&
            ((toLowerStr (if getEntryDisplayText main ≠ [] then getEntryDisplayText main
              else main.text)).isEmpty ||
             toLowerStr t !=
               toLowerStr (if getEntryDisplayText main ≠ [] then getEntryDisplayText main
                 else main.text)))).isEmpty
      · rw [if_pos hp] at ht
        exact Option.noConfusion ht
      · rw [if_neg hp] at ht
        injection ht with ht'
        subst ht'
        cases hps : ((((List.insertionSort relGroup grp).eraseIdx
            (mainIndex (List.insertionSort relGroup grp))).filter
            (fun e => !e.isMetadata && hasMeaningfulContent e)).map getEntryDisplayText).filter
            (fun t => !t.isEmpty &&
              ((toLowerStr (if getEntryDisplayText main ≠ [] then getEntryDisplayText main
                else main.text)).isEmpty ||
               toLowerStr t !=
                 toLowerStr (if getEntryDisplayText main ≠ [] then getEntryDisplayText main
                   else main.text))) with
        | nil => rw [hps] at hp; simp at hp
        | cons p ps =>
          have hpmem : p ∈ (((List.insertionSort relGroup grp).eraseIdx
              (mainIndex (List.insertionSort relGroup grp))).filter
              (fun e => !e.isMetadata && hasMeaningfulContent e)).map getEntryDisplayText := by
            have := List.mem_of_mem_filter (l := (((List.insertionSort relGroup grp).eraseIdx
              (mainIndex (List.insertionSort relGroup grp))).filter
              (fun e => !e.isMetadata && hasMeaningfulContent e)).map getEntryDisplayText)
              (a := p) (by rw [hps]; simp)
            exact this
          obtain ⟨e, he, hpe⟩ := List.mem_map.1 hpmem
          have hmeaning : hasMeaningfulContent e = true := by
            have := List.of_mem_filter he
            simp only [Bool.and_eq_true] at this
            exact this.2
          have htrim : trimStr p ≠ [] := by
            rw [← hpe]
            simp only [hasMeaningfulContent, Bool.and_eq_true] at hmeaning
            have := hmeaning.1
            simpa using this
          exact trimStr_joinWith_ne_nil (p := p) (by simp) htrim

/-- Transport of line-level facts through the fuelled grouping loop. -/
theorem groupLoopWith_forall (emit : List ParsedLineData → List LyricLine)
    (P : LyricLine → Prop) (h : ∀ grp l, l ∈ emit grp → P l) :
    ∀ (n : ℕ) (es : List ParsedLineData) (l : LyricLine),
      l ∈ groupLoopWith emit n es → P l := by
  intro n
  induction n with
  | zero =>
    intro es l hl
    cases es with
    | nil => simp [groupLoopWith] at hl
    | cons e r => simp [groupLoopWith] at hl
  | succ n ih =>
    intro es l hl
    cases es with
    | nil => simp [groupLoopWith] at hl
    | cons e r =>
      rw [groupLoopWith] at hl
      rcases List.mem_append.1 hl with hl1 | hl2
      · exact h _ l hl1
      · exact ih _ l hl2

theorem groupAndMergeLines_transOk (entries : List ParsedLineData) :
    ∀ l ∈ groupAndMergeLines entries, transOk l :=
  fun l hl => groupLoopWith_forall emitGroup transOk
    (fun grp l hl => emitGroup_transOk grp l hl) entries.length entries l hl

/-- Every bucket line of the word-synced merger carries a well-formed
translation. -/
theorem mkBucketLine_transOk (main : ParsedLineData) (translations : List Str) :
    ∀ p ∈ mkBucketLine main translations, transOk p.1 := by
  intro p hp
  simp only [mkBucketLine] at hp
  by_cases hm : main.isMetadata
  · simp [hm] at hp
  · simp only [hm, Bool.false_eq_true, if_false, List.mem_singleton] at hp
    subst hp
    intro t ht
    simp only at ht
    by_cases he : ((translations.map trimStr).filter
        (fun t => !t.isEmpty && ((toLowerStr (getEntryDisplayText main)).isEmpty ||
          toLowerStr t != toLowerStr (getEntryDisplayText main)))).isEmpty
    · rw [if_pos he] at ht
      exact Option.noConfusion ht
    · rw [if_neg he] at ht
      injection ht with ht'
      subst ht'
      cases hps : (translations.map trimStr).filter
          (fun t => !t.isEmpty && ((toLowerStr (getEntryDisplayText main)).isEmpty ||
            toLowerStr t != toLowerStr (getEntryDisplayText main))) with
      | nil => rw [hps] at he; simp at he
      | cons p ps =>
        have hpm : p ∈ translations.map trimStr :=
          List.mem_of_mem_filter (by rw [hps]; simp)
        have hpne : p ≠ [] := by
          have := List.of_mem_filter (p := fun t => !t.isEmpty &&
            ((toLowerStr (getEntryDisplayText main)).isEmpty ||
              toLowerStr t != toLowerStr (getEntryDisplayText main)))
            (a := p) (by rw [hps]; simp)
          simp only [Bool.and_eq_true] at this
          simpa using this.1
        obtain ⟨x, _, hx⟩ := List.mem_map.1 hpm
        have htp : trimStr p ≠ [] := by
          rw [← hx]
          exact trimStr_trim_ne_nil (by rw [hx]; exact hpne)
        exact trimStr_joinWith_ne_nil (p := p) (by simp) htp

theorem mkOrphanLine_transOk (o : ParsedLineData) :
    ∀ p ∈ mkOrphanLine o, transOk p.1 := by
  intro p hp
  simp only [mkOrphanLine] at hp
  by_cases hm : o.isMetadata
  · simp [hm] at hp
  · simp only [hm, Bool.false_eq_true, if_false, List.mem_singleton] at hp
    subst hp
    intro t ht
    exact Option.noConfusion ht

theorem mergeYrc_transOk (entries : List ParsedLineData) :
    ∀ l ∈ mergeYrcWithTranslations entries, transOk l := by
  intro l hl
  simp only [mergeYrcWithTranslations] at hl
  obtain ⟨p, hp, hpl⟩ := List.mem_map.1 hl
  have hp' := (List.mem_insertionSort (r := relLineIdx)).1 hp
  rcases List.mem_append.1 hp' with hb | ho
  · obtain ⟨sub, hsub, hpsub⟩ := List.mem_flatten.1 hb
    obtain ⟨pair, _, hpair⟩ := List.mem_map.1 hsub
    rw [← hpair] at hpsub
    rw [← hpl]
    exact mkBucketLine_transOk pair.1 pair.2 p hpsub
  · obtain ⟨sub, hsub, hpsub⟩ := List.mem_flatten.1 ho
    obtain ⟨o, _, hpair⟩ := List.mem_map.1 hsub
    rw [← hpair] at hpsub
    rw [← hpl]
    exact mkOrphanLine_transOk o p hpsub

theorem fixWordEndTimes_translation :
    ∀ (L : List LyricLine), ∀ l ∈ fixWordEndTimes L, ∃ l0 ∈ L, l.translation = l0.translation := by
  intro L
  induction L with
  | nil => intro l hl; simp [fixWordEndTimes] at hl
  | cons a t ih =>
    cases t with
    | nil =>
      intro l hl
      simp only [fixWordEndTimes, List.mem_singleton] at hl
      exact ⟨a, by simp, by rw [hl]⟩
    | cons b r =>
      intro l hl
      rw [fixWordEndTimes] at hl
      rcases List.mem_cons.1 hl with rfl | hl'
      · exact ⟨a, by simp, rfl⟩
      · obtain ⟨l0, hl0, he⟩ := ih l hl'
        exact ⟨l0, by simp [List.mem_cons.1 hl0], he⟩

theorem processLyricsDurations_translation :
    ∀ (L : List LyricLine), ∀ l ∈ processLyricsDurations L,
      ∃ l0 ∈ L, l.translation = l0.translation := by
  intro L
  induction L with
  | nil => intro l hl; simp [processLyricsDurations] at hl
  | cons a t ih =>
    cases t with
    | nil =>
      intro l hl
      simp only [processLyricsDurations, List.mem_singleton] at hl
      exact ⟨a, by simp, by rw [hl]⟩
    | cons b r =>
      intro l hl
      rw [processLyricsDurations] at hl
      rcases List.mem_cons.1 hl with rfl | hl'
      · exact ⟨a, by simp, rfl⟩
      · obtain ⟨l0, hl0, he⟩ := ih l hl'
        exact ⟨l0, by simp [List.mem_cons.1 hl0], he⟩

theorem parseLrc_transOk (content : Str) : ∀ l ∈ parseLrc content, transOk l := by
  intro l hl
  simp only [parseLrc] at hl
  obtain ⟨l1, hl1, he1⟩ := processLyricsDurations_translation _ l hl
  obtain ⟨l0, hl0, he0⟩ := fixWordEndTimes_translation _ l1 hl1
  intro t ht
  exact groupAndMergeLines_transOk _ l0 hl0 t (by rw [← he0, ← he1, ht])

theorem parseNeteaseLyrics_transOk (content : Str) :
    ∀ l ∈ parseNeteaseLyrics content, transOk l := by
  intro l hl
  simp only [parseNeteaseLyrics] at hl
  by_cases hy : (sortEntries (neteaseEntries content)).any (fun e => decide (1000 ≤ e.tagCount))
  · rw [if_pos hy] at hl
    exact mergeYrc_transOk _ l hl
  · rw [if_neg hy] at hl
    obtain ⟨e, _, hle⟩ := List.mem_map.1 hl
    intro t ht
    rw [← hle] at ht
    exact Option.noConfusion ht

/-- C1: every translation `parseLyrics` emits is non-empty after trimming
(the amended claim drops the cross-track text comparison, which the merger
never performs). -/
theorem C1_theorem (content : Str) (tc : Option Str) (l : LyricLine)
    (hl : l ∈ parseLyrics content tc) (t : Str) (ht : l.translation = some t) :
    trimStr t ≠ [] := by
  simp only [parseLyrics] at hl
  by_cases hc : (trimStr content).isEmpty
  · rw [if_pos hc] at hl; simp at hl
  · rw [if_neg hc] at hl
    obtain ⟨l1, hl1, he1⟩ := processLyricsDurations_translation _ l hl
    have hbase : ∀ x ∈ (if isNeteaseFormat content then parseNeteaseLyrics content
        else parseLrc content), transOk x := by
      by_cases hn : isNeteaseFormat content
      · simpa [hn] using parseNeteaseLyrics_transOk content
      · simpa [hn] using parseLrc_transOk content
    have htr1 : transOk l1 := by
      cases tc with
      | none => exact hbase l1 hl1
      | some c =>
        simp only at hl1
        by_cases hce : (trimStr c).isEmpty
        · rw [if_pos hce] at hl1
          exact hbase l1 hl1
        · rw [if_neg hce] at hl1
          obtain ⟨l0, hl0, hf⟩ := forall2_exists_right (mergeTranslations_frame _ (some c)) l1 hl1
          rcases hf.2.2.2.2.2 with heq | ⟨u, hu, hue⟩
          · intro u hu
            exact hbase l0 hl0 u (by rw [← heq, hu])
          · intro v hv
            rw [hv] at hu
            injection hu with hu'
            rw [hu']
            exact hue
    exact htr1 t (by rw [← he1, ht])

theorem C1_witness : trimStr "World".toList ≠ [] :=
  C1_theorem "[00:10.00]Hello".toList (some "[00:10.00]World".toList)
    ⟨10000, "Hello".toList, [], some "World".toList, false, some 5000⟩
    (by decide) "World".toList (by decide)

/-! ## C3: output ordering -/

/-! Characterizations of the epsilon comparators on separated inputs. -/

theorem relEntries_total (a b : ParsedLineData) : relEntries a b ∨ relEntries b a := by
  unfold relEntries cmpEntries
  by_cases h : |a.time - b.time| > 10
  · have h' : |b.time - a.time| > 10 := by rw [abs_sub_comm]; exact h
    rw [if_pos h, if_pos h']
    omega
  · have h' : ¬(|b.time - a.time| > 10) := by rw [abs_sub_comm]; exact h
    rw [if_neg h, if_neg h']
    omega

theorem relEntries_char (a b : ParsedLineData)
    (h : a.time = b.time ∨ 10 < |a.time - b.time|) :
    relEntries a b ↔ (a.time < b.time ∨ (a.time = b.time ∧ a.originalIndex ≤ b.originalIndex)) := by
  unfold relEntries cmpEntries
  rcases h with h | h
  · rw [if_neg (by rw [h]; simp)]
    constructor
    · intro hle
      exact Or.inr ⟨h, by omega⟩
    · intro hor
      rcases hor with hlt | ⟨_, hle⟩
      · omega
      · omega
  · rw [if_pos h]
    rcases abs_cases (a.time - b.time) with ⟨he, h0⟩ | ⟨he, h0⟩ <;> rw [he] at h
    · constructor
      · intro hle; omega
      · intro hor; rcases hor with hlt | ⟨heq, _⟩ <;> omega
    · constructor
      · intro _; left; omega
      · intro _; omega

theorem relLineIdx_total (a b : LyricLine × ℕ) : relLineIdx a b ∨ relLineIdx b a := by
  unfold relLineIdx cmpLineIdx
  by_cases h : |a.1.time - b.1.time| > 1
  · have h' : |b.1.time - a.1.time| > 1 := by rw [abs_sub_comm]; exact h
    rw [if_pos h, if_pos h']
    omega
  · have h' : ¬(|b.1.time - a.1.time| > 1) := by rw [abs_sub_comm]; exact h
    rw [if_neg h, if_neg h']
    omega

theorem relLineIdx_char (a b : LyricLine × ℕ)
    (h : a.1.time = b.1.time ∨ 1 < |a.1.time - b.1.time|) :
    relLineIdx a b ↔ (a.1.time < b.1.time ∨ (a.1.time = b.1.time ∧ a.2 ≤ b.2)) := by
  unfold relLineIdx cmpLineIdx
  rcases h with h | h
  · rw [if_neg (by rw [h]; simp)]
    constructor
    · intro hle
      exact Or.inr ⟨h, by omega⟩
    · intro hor
      rcases hor with hlt | ⟨_, hle⟩
      · omega
      · omega
  · rw [if_pos h]
    rcases abs_cases (a.1.time - b.1.time) with ⟨he, h0⟩ | ⟨he, h0⟩ <;> rw [he] at h
    · constructor
      · intro hle; omega
      · intro hor; rcases hor with hlt | ⟨heq, _⟩ <;> omega
    · constructor
      · intro _; left; omega
      · intro _; omega

/-! The entry sort on separated inputs orders times non-decreasingly. -/

theorem mem_sortEntries {es : List ParsedLineData} {e : ParsedLineData}
    (h : e ∈ sortEntries es) : e ∈ es := by
  unfold sortEntries at h
  exact (List.mem_insertionSort (r := relEntries)).1 h

theorem sortEntries_time_sorted (es0 : List ParsedLineData)
    (hsep : ∀ a ∈ es0, ∀ b ∈ es0, a.time = b.time ∨ 10 < |a.time - b.time|) :
    (sortEntries es0).Pairwise (fun a b => a.time ≤ b.time) := by
  have hp := insertionSort_pairwise relEntries (fun e => e ∈ es0)
    (fun a b _ _ => relEntries_total a b)
    (fun a b c ha hb hc hab hbc => by
      rw [relEntries_char a b (hsep a ha b hb)] at hab
      rw [relEntries_char b c (hsep b hb c hc)] at hbc
      rw [relEntries_char a c (hsep a ha c hc)]
      rcases hab with h1 | ⟨h1, h1'⟩ <;> rcases hbc with h2 | ⟨h2, h2'⟩ <;> omega)
    es0 (fun x hx => hx)
  unfold sortEntries
  refine hp.imp_of_mem ?_
  intro a b ha hb hr
  have ha' := (List.mem_insertionSort (r := relEntries)).1 ha
  have hb' := (List.mem_insertionSort (r := relEntries)).1 hb
  rw [relEntries_char a b (hsep a ha' b hb')] at hr
  rcases hr with h | ⟨h, _⟩ <;> omega

/-! The grouping loop preserves time-sortedness. -/

theorem emitGroup_time (grp : List ParsedLineData) (l : LyricLine)
    (hl : l ∈ emitGroup grp) : ∃ e ∈ grp, l.time = e.time := by
  simp only [emitGroup] at hl
  cases hmi : (List.insertionSort relGroup grp)[mainIndex (List.insertionSort relGroup grp)]? with
  | none => rw [hmi] at hl; simp at hl
  | some main =>
    rw [hmi] at hl
    by_cases hm : main.isMetadata
    · simp [hm] at hl
    · simp only [hm, Bool.false_eq_true, if_false, List.mem_singleton] at hl
      subst hl
      refine ⟨main, ?_, rfl⟩
      have := List.getElem?_mem hmi
      exact (List.mem_insertionSort (r := relGroup)).1 this

theorem emitGroup_shape (grp : List ParsedLineData) :
    emitGroup grp = [] ∨ ∃ x, emitGroup grp = [x] := by
  simp only [emitGroup]
  cases (List.insertionSort relGroup grp)[mainIndex (List.insertionSort relGroup grp)]? with
  | none => exact Or.inl rfl
  | some main =>
    by_cases hm : main.isMetadata
    · simp [hm]
    · simp only [hm, Bool.false_eq_true, if_false]
      exact Or.inr ⟨_, rfl⟩

theorem groupLoop_time_mem :
    ∀ (n : ℕ) (es : List ParsedLineData) (l : LyricLine),
      l ∈ groupLoopWith emitGroup n es → ∃ e ∈ es, l.time = e.time := by
  intro n
  induction n with
  | zero =>
    intro es l hl
    cases es with
    | nil => simp [groupLoopWith] at hl
    | cons e r => simp [groupLoopWith] at hl
  | succ n ih =>
    intro es l hl
    cases es with
    | nil => simp [groupLoopWith] at hl
    | cons e r =>
      rw [groupLoopWith] at hl
      rcases List.mem_append.1 hl with hl1 | hl2
      · obtain ⟨x, hx, hlx⟩ := emitGroup_time _ l hl1
        rcases List.mem_cons.1 hx with rfl | hx'
        · exact ⟨x, by simp, hlx⟩
        · exact ⟨x, by simp [(List.takeWhile_sublist _).mem hx'], hlx⟩
      · obtain ⟨x, hx, hlx⟩ := ih _ l hl2
        exact ⟨x, by simp [(List.dropWhile_sublist _).mem hx], hlx⟩

theorem dropWhile_window_ge (e : ParsedLineData) :
    ∀ (rest : List ParsedLineData),
      rest.Pairwise (fun a b : ParsedLineData => a.time ≤ b.time) →
      (∀ x ∈ rest, e.time ≤ x.time) →
      ∀ y ∈ rest.dropWhile (fun x => decide (|x.time - e.time| < 100)),
        e.time + 100 ≤ y.time := by
  intro rest
  induction rest with
  | nil => intro _ _ y hy; simp at hy
  | cons x rs ih =>
    intro hp hall y hy
    by_cases hx : |x.time - e.time| < 100
    · rw [List.dropWhile_cons_of_pos (by simpa using hx)] at hy
      exact ih (List.pairwise_cons.1 hp).2 (fun z hz => hall z (by simp [hz])) y hy
    · rw [List.dropWhile_cons_of_neg (by simpa using hx)] at hy
      have hxe : e.time ≤ x.time := hall x (by simp)
      have habs : |x.time - e.time| = x.time - e.time := abs_of_nonneg (by omega)
      rw [habs] at hx
      rcases List.mem_cons.1 hy with rfl | hy'
      · omega
      · have := (List.pairwise_cons.1 hp).1 y hy'
        omega

theorem takeWhile_window_lt (e : ParsedLineData) (rest : List ParsedLineData) :
    ∀ y ∈ e :: rest.takeWhile (fun x => decide (|x.time - e.time| < 100)),
      y.time < e.time + 100 := by
  intro y hy
  rcases List.mem_cons.1 hy with rfl | hy'
  · omega
  · have hp := List.mem_takeWhile_imp hy'
    have hlt : |y.time - e.time| < 100 := by simpa using hp
    rcases abs_cases (y.time - e.time) with ⟨he, _⟩ | ⟨he, _⟩ <;> rw [he] at hlt <;> omega

theorem groupLoop_time_sorted :
    ∀ (n : ℕ) (es : List ParsedLineData),
      es.Pairwise (fun a b : ParsedLineData => a.time ≤ b.time) →
      (groupLoopWith emitGroup n es).Pairwise (fun a b : LyricLine => a.time ≤ b.time) := by
  intro n
  induction n with
  | zero =>
    intro es _
    cases es with
    | nil => simp [groupLoopWith]
    | cons e r => simp [groupLoopWith]
  | succ n ih =>
    intro es hp
    cases es with
    | nil => simp [groupLoopWith]
    | cons e r =>
      rw [groupLoopWith, List.pairwise_append]
      have hpc := List.pairwise_cons.1 hp
      refine ⟨?_, ?_, ?_⟩
      · rcases emitGroup_shape (e :: r.takeWhile (fun x => decide (|x.time - e.time| < 100)))
          with h | ⟨x, h⟩
        · rw [h]; exact List.Pairwise.nil
        · rw [h]; simp
      · exact ih _ (List.Pairwise.sublist ((List.dropWhile_sublist _).trans (List.sublist_cons_self e r)) hp)
      · intro a ha b hb
        obtain ⟨x, hx, hax⟩ := emitGroup_time _ a ha
        obtain ⟨y, hy, hby⟩ := groupLoop_time_mem n _ b hb
        have h1 : a.time < e.time + 100 := by
          rw [hax]
          exact takeWhile_window_lt e r x hx
        have h2 : e.time + 100 ≤ b.time := by
          rw [hby]
          exact dropWhile_window_ge e r hpc.2 hpc.1 y hy
        omega

theorem groupAndMergeLines_time_sorted (entries : List ParsedLineData)
    (hp : entries.Pairwise (fun a b : ParsedLineData => a.time ≤ b.time)) :
    (groupAndMergeLines entries).Pairwise (fun a b : LyricLine => a.time ≤ b.time) :=
  groupLoop_time_sorted entries.length entries hp

/-! Time bookkeeping of the word-synced merger. -/

theorem mkBucketLine_time (main : ParsedLineData) (ts : List Str) (p : LyricLine × ℕ)
    (hp : p ∈ mkBucketLine main ts) : p.1.time = main.time := by
  simp only [mkBucketLine] at hp
  by_cases hm : main.isMetadata
  · simp [hm] at hp
  · simp only [hm, Bool.false_eq_true, if_false, List.mem_singleton] at hp
    rw [hp]

theorem mkOrphanLine_time (o : ParsedLineData) (p : LyricLine × ℕ)
    (hp : p ∈ mkOrphanLine o) : p.1.time = o.time := by
  simp only [mkOrphanLine] at hp
  by_cases hm : o.isMetadata
  · simp [hm] at hp
  · simp only [hm, Bool.false_eq_true, if_false, List.mem_singleton] at hp
    rw [hp]

theorem specMergeYrc_time_sorted (entries es0 : List ParsedLineData)
    (hsub : ∀ e ∈ entries, ∃ e0 ∈ es0, e.time = e0.time)
    (hsep : ∀ a ∈ es0, ∀ b ∈ es0, a.time = b.time ∨ 10 < |a.time - b.time|) :
    (specMergeYrc entries).Pairwise (fun a b : LyricLine => a.time ≤ b.time) := by
  simp only [specMergeYrc]
  rw [List.pairwise_map]
  have hSmem : ∀ p ∈ ((entries.filter (fun e => decide (1000 ≤ e.tagCount))).enum.map
        (fun p => mkBucketLine p.2
          (bucketTexts (entries.filter (fun e => decide (1000 ≤ e.tagCount)))
            (entries.filter (fun e => decide (e.tagCount < 1000))) p.1))).flatten ++
      (((entries.filter (fun e => decide (e.tagCount < 1000))).filter
        (fun o => !o.isMetadata &&
          (assignedIdx (entries.filter (fun e => decide (1000 ≤ e.tagCount))) o).isNone)).map
        mkOrphanLine).flatten,
      ∃ e0 ∈ es0, p.1.time = e0.time := by
    intro p hp
    rcases List.mem_append.1 hp with hb | ho
    · obtain ⟨sub, hsub', hpsub⟩ := List.mem_flatten.1 hb
      obtain ⟨q, hq, hqe⟩ := List.mem_map.1 hsub'
      rw [← hqe] at hpsub
      have hq2 : q.2 ∈ entries.filter (fun e => decide (1000 ≤ e.tagCount)) := by
        have h1 : q.2 ∈ (entries.filter (fun e => decide (1000 ≤ e.tagCount))).enum.map
            Prod.snd := List.mem_map_of_mem Prod.snd hq
        rwa [List.enum_map_snd] at h1
      obtain ⟨e0, he0, het⟩ := hsub q.2 (List.mem_of_mem_filter hq2)
      exact ⟨e0, he0, by rw [mkBucketLine_time q.2 _ p hpsub]; exact het⟩
    · obtain ⟨sub, hsub', hpsub⟩ := List.mem_flatten.1 ho
      obtain ⟨o, hoin, hoe⟩ := List.mem_map.1 hsub'
      rw [← hoe] at hpsub
      have ho2 : o ∈ entries.filter (fun e => decide (e.tagCount < 1000)) :=
        List.mem_of_mem_filter hoin
      obtain ⟨e0, he0, het⟩ := hsub o (List.mem_of_mem_filter ho2)
      exact ⟨e0, he0, by rw [mkOrphanLine_time o p hpsub]; exact het⟩
  have hsep' : ∀ p q : LyricLine × ℕ, (∃ e0 ∈ es0, p.1.time = e0.time) →
      (∃ e0 ∈ es0, q.1.time = e0.time) →
      p.1.time = q.1.time ∨ 1 < |p.1.time - q.1.time| := by
    intro p q ⟨e0, he0, hpe⟩ ⟨f0, hf0, hqf⟩
    rcases hsep e0 he0 f0 hf0 with h | h
    · exact Or.inl (by rw [hpe, hqf, h])
    · refine Or.inr ?_
      rw [hpe, hqf]
      have h10 : (1 : ℤ) < 10 := by norm_num
      exact h10.trans h
  have hp := insertionSort_pairwise relLineIdx (fun p => ∃ e0 ∈ es0, p.1.time = e0.time)
    (fun a b _ _ => relLineIdx_total a b)
    (fun a b c ha hb hc hab hbc => by
      rw [relLineIdx_char a b (hsep' a b ha hb)] at hab
      rw [relLineIdx_char b c (hsep' b c hb hc)] at hbc
      rw [relLineIdx_char a c (hsep' a c ha hc)]
      rcases hab with h1 | ⟨h1, h1'⟩ <;> rcases hbc with h2 | ⟨h2, h2'⟩ <;> omega)
    _ hSmem
  refine hp.imp_of_mem ?_
  intro a b ha hb hr
  have ha' := hSmem a ((List.mem_insertionSort (r := relLineIdx)).1 ha)
  have hb' := hSmem b ((List.mem_insertionSort (r := relLineIdx)).1 hb)
  rw [relLineIdx_char a b (hsep' a b ha' hb')] at hr
  rcases hr with h | ⟨h, _⟩ <;> omega

theorem parseNeteaseLyrics_time_sorted (content : Str)
    (hsep : ∀ a ∈ neteaseEntries content, ∀ b ∈ neteaseEntries content,
      a.time = b.time ∨ 10 < |a.time - b.time|) :
    (parseNeteaseLyrics content).Pairwise (fun a b : LyricLine => a.time ≤ b.time) := by
  simp only [parseNeteaseLyrics]
  by_cases hy : (sortEntries (neteaseEntries content)).any (fun e => decide (1000 ≤ e.tagCount))
  · rw [if_pos hy, mergeYrc_eq_spec]
    exact specMergeYrc_time_sorted _ (neteaseEntries content)
      (fun e he => ⟨e, mem_sortEntries he, rfl⟩) hsep
  · rw [if_neg hy]
    rw [List.pairwise_map]
    have hsorted := sortEntries_time_sorted (neteaseEntries content) hsep
    have hfil : ((sortEntries (neteaseEntries content)).filter
        (fun e => !e.isMetadata && hasMeaningfulContent e)).Pairwise
        (fun a b : ParsedLineData => a.time ≤ b.time) :=
      List.Pairwise.sublist (List.filter_sublist _) hsorted
    exact hfil.imp (fun h => h)

/-! Time maps of the remaining passes. -/

theorem fixWordEndTimes_map_time (ls : List LyricLine) :
    (fixWordEndTimes ls).map LyricLine.time = ls.map LyricLine.time := by
  induction ls with
  | nil => rfl
  | cons a t ih =>
    cases t with
    | nil => rfl
    | cons b r => simpa [fixWordEndTimes] using ih

theorem mergeFrame_map_time {M L : List LyricLine} (h : List.Forall₂ mergeFrame M L) :
    M.map LyricLine.time = L.map LyricLine.time := by
  induction h with
  | nil => rfl
  | cons hr _ ih => simp [ih, hr.1]

theorem pairwise_time_of_map_eq {M L : List LyricLine}
    (h : M.map LyricLine.time = L.map LyricLine.time)
    (hp : L.Pairwise (fun a b : LyricLine => a.time ≤ b.time)) :
    M.Pairwise (fun a b : LyricLine => a.time ≤ b.time) := by
  have h1 : (L.map LyricLine.time).Pairwise (fun x y : ℤ => x ≤ y) := List.pairwise_map.2 hp
  rw [← h] at h1
  exact List.pairwise_map.1 h1

theorem parseLrc_time_sorted (content : Str)
    (hsep : ∀ a ∈ lrcEntries content, ∀ b ∈ lrcEntries content,
      a.time = b.time ∨ 10 < |a.time - b.time|) :
    (parseLrc content).Pairwise (fun a b : LyricLine => a.time ≤ b.time) := by
  unfold parseLrc
  refine pairwise_time_of_map_eq (processLyricsDurations_map_time _) ?_
  refine pairwise_time_of_map_eq (fixWordEndTimes_map_time _) ?_
  exact groupAndMergeLines_time_sorted _ (sortEntries_time_sorted _ hsep)

/-- C3: under the 0.01 s separation precondition on the parsed raw entries
(any two are simultaneous or more than the sort tie epsilon apart), the
lines `parseLyrics` returns are sorted non-decreasingly by time. -/
theorem C3_theorem (content : Str) (tc : Option Str)
    (hsep : ∀ a ∈ (if isNeteaseFormat content then neteaseEntries content
        else lrcEntries content),
      ∀ b ∈ (if isNeteaseFormat content then neteaseEntries content
        else lrcEntries content),
      a.time = b.time ∨ 10 < |a.time - b.time|) :
    (parseLyrics content tc).Pairwise (fun a b : LyricLine => a.time ≤ b.time) := by
  simp only [parseLyrics]
  by_cases hc : (trimStr content).isEmpty
  · rw [if_pos hc]
    exact List.Pairwise.nil
  · rw [if_neg hc]
    have hbase : (if isNeteaseFormat content then parseNeteaseLyrics content
        else parseLrc content).Pairwise (fun a b : LyricLine => a.time ≤ b.time) := by
      by_cases hn : isNeteaseFormat content
      · rw [if_pos hn]
        rw [if_pos hn] at hsep
        exact parseNeteaseLyrics_time_sorted content hsep
      · rw [if_neg hn]
        rw [if_neg hn] at hsep
        exact parseLrc_time_sorted content hsep
    refine pairwise_time_of_map_eq (processLyricsDurations_map_time _) ?_
    cases tc with
    | none => exact hbase
    | some c =>
      simp only
      by_cases hce : (trimStr c).isEmpty
      · rw [if_pos hce]
        exact hbase
      · rw [if_neg hce]
        exact pairwise_time_of_map_eq (mergeFrame_map_time (mergeTranslations_frame _ (some c)))
          hbase

theorem C3_witness :
    (∀ a ∈ (if isNeteaseFormat "[00:10.00]A\n[00:20.00]B".toList then
        neteaseEntries "[00:10.00]A\n[00:20.00]B".toList
        else lrcEntries "[00:10.00]A\n[00:20.00]B".toList),
      ∀ b ∈ (if isNeteaseFormat "[00:10.00]A\n[00:20.00]B".toList then
        neteaseEntries "[00:10.00]A\n[00:20.00]B".toList
        else lrcEntries "[00:10.00]A\n[00:20.00]B".toList),
      a.time = b.time ∨ 10 < |a.time - b.time|) ∧
    (parseLyrics "[00:10.00]A\n[00:20.00]B".toList none).Pairwise
      (fun a b : LyricLine => a.time ≤ b.time) :=
  ⟨by decide, C3_theorem "[00:10.00]A\n[00:20.00]B".toList none (by decide)⟩

end Aura
